import Mathlib

/-!
# Verification of the hashcredit off-chain SPV pipeline

A shallow embedding, in Lean 4, of the pure computational core of the
`ctc-hashcredit` off-chain services (`offchain/prover/hashcredit_prover`,
`offchain/api/hashcredit_api`): Bitcoin byte-level primitives, the Merkle
root/proof generator and verifier, the block-header codec, the transaction
output parser, the SPV proof builder and its local verifier, the ABI encoder
for the on-chain proof tuple, the payout store state machine, the address
decoders, and the HMAC claim-token issue/verify pair.

Conventions of the embedding:
* byte strings are `List Nat` (each element a byte value `< 256`);
* Python functions that can raise become `Option`/`Except` valued;
* machine-integer arithmetic is `Nat` with explicit `% 2 ^ w` where Python
  wraps (SHA-256 words), and plain `Nat` where Python uses unbounded ints;
* `while` loops over shrinking lists are written with an explicit fuel
  argument (the initial list length always suffices, which the lemmas track),
  keeping every definition executable by kernel reduction;
* nondeterministic inputs of the original code (`time.time()`, random nonces,
  RPC responses) become explicit parameters.
-/

set_option maxRecDepth 100000
set_option maxHeartbeats 1000000

namespace HashCredit

/-! ## Byte-level helpers

`leBytesToNat`/`beBytesToNat` embed Python's `int.from_bytes(_, "little")` /
`(_, "big")` (which accept slices of any length, including short ones), and
`toLEBytes`/`toBEBytes` embed `int.to_bytes(width, ...)`. -/

def leBytesToNat : List Nat → Nat
  | [] => 0
  | b :: bs => b + 256 * leBytesToNat bs

def beBytesToNat (l : List Nat) : Nat :=
  l.foldl (fun acc b => acc * 256 + b) 0

def toLEBytes : Nat → Nat → List Nat
  | 0, _ => []
  | w + 1, n => (n % 256) :: toLEBytes w (n / 256)

def toBEBytes (w n : Nat) : List Nat :=
  (toLEBytes w n).reverse

/-- Python slice `data[a:b]` for `a ≤ b` (clamping at the ends, never raising). -/
def pySlice (data : List Nat) (a b : Nat) : List Nat :=
  (data.drop a).take (b - a)

theorem toLEBytes_length (w n : Nat) : (toLEBytes w n).length = w := by
  induction w generalizing n with
  | zero => rfl
  | succ w ih => simp [toLEBytes, ih]

theorem toBEBytes_length (w n : Nat) : (toBEBytes w n).length = w := by
  simp [toBEBytes, toLEBytes_length]

theorem toLEBytes_lt (w n : Nat) : ∀ b ∈ toLEBytes w n, b < 256 := by
  induction w generalizing n with
  | zero => simp [toLEBytes]
  | succ w ih =>
    intro b hb
    simp only [toLEBytes, List.mem_cons] at hb
    rcases hb with h | h
    · exact h ▸ Nat.mod_lt _ (by norm_num)
    · exact ih _ b h

theorem toBEBytes_lt (w n : Nat) : ∀ b ∈ toBEBytes w n, b < 256 := by
  intro b hb
  exact toLEBytes_lt w n b (List.mem_reverse.mp hb)

theorem leBytesToNat_toLEBytes (w n : Nat) (h : n < 2 ^ (8 * w)) :
    leBytesToNat (toLEBytes w n) = n := by
  induction w generalizing n with
  | zero => simpa [toLEBytes, leBytesToNat] using (Nat.lt_one_iff.mp h).symm
  | succ w ih =>
    have hdiv : n / 256 < 2 ^ (8 * w) := by
      apply Nat.div_lt_of_lt_mul
      calc n < 2 ^ (8 * (w + 1)) := h
        _ = 2 ^ (8 * w) * 256 := by ring
        _ = 256 * 2 ^ (8 * w) := by ring
    simp [toLEBytes, leBytesToNat, ih _ hdiv]
    omega

/-! ## SHA-256 and double SHA-256

Embeds `hashlib.sha256` (FIPS 180-4) and the repo's
`sha256d(data) = sha256(sha256(data))` (`hashcredit_prover/bitcoin.py`).
Words are `Nat` reduced mod `2 ^ 32`. -/

def M32 : Nat := 4294967296

def rotr32 (n x : Nat) : Nat :=
  (x >>> n) ||| ((x <<< (32 - n)) % M32)

def shaK : List Nat :=
  [1116352408, 1899447441, 3049323471, 3921009573, 961987163, 1508970993,
   2453635748, 2870763221, 3624381080, 310598401, 607225278, 1426881987,
   1925078388, 2162078206, 2614888103, 3248222580, 3835390401, 4022224774,
   264347078, 604807628, 770255983, 1249150122, 1555081692, 1996064986,
   2554220882, 2821834349, 2952996808, 3210313671, 3336571891, 3584528711,
   113926993, 338241895, 666307205, 773529912, 1294757372, 1396182291,
   1695183700, 1986661051, 2177026350, 2456956037, 2730485921, 2820302411,
   3259730800, 3345764771, 3516065817, 3600352804, 4094571909, 275423344,
   430227734, 506948616, 659060556, 883997877, 958139571, 1322822218,
   1537002063, 1747873779, 1955562222, 2024104815, 2227730452, 2361852424,
   2428436474, 2756734187, 3204031479, 3329325298]

def shaInitState : List Nat :=
  [1779033703, 3144134277, 1013904242, 2773480762,
   1359893119, 2600822924, 528734635, 1541459225]

/-- SHA-256 padding: append `0x80`, zero bytes to 56 mod 64, then the bit
length as 8 big-endian bytes. -/
def shaPad (msg : List Nat) : List Nat :=
  msg ++ 0x80 :: List.replicate ((64 - ((msg.length + 9) % 64)) % 64) 0
      ++ toBEBytes 8 (8 * msg.length)

/-- Big-endian 4-byte groups of a byte list (fuel = list length suffices). -/
def bytesToWords : Nat → List Nat → List Nat
  | 0, _ => []
  | _ + 1, [] => []
  | fuel + 1, l => beBytesToNat (l.take 4) :: bytesToWords fuel (l.drop 4)

/-- Extend a 16-word chunk to the 64-word message schedule. -/
def shaExtend : Nat → List Nat → List Nat
  | 0, w => w
  | n + 1, w =>
    let i := w.length
    let w15 := w.getD (i - 15) 0
    let w2 := w.getD (i - 2) 0
    let s0 := (rotr32 7 w15) ^^^ (rotr32 18 w15) ^^^ (w15 >>> 3)
    let s1 := (rotr32 17 w2) ^^^ (rotr32 19 w2) ^^^ (w2 >>> 10)
    shaExtend n (w ++ [(w.getD (i - 16) 0 + s0 + w.getD (i - 7) 0 + s1) % M32])

/-- The 64 compression rounds, driven by the zipped `(k, w)` streams. -/
def shaRounds : List Nat → List Nat → List Nat → List Nat
  | [], _, st => st
  | _, [], st => st
  | k :: ks, w :: ws, st =>
    let a := st.getD 0 0
    let b := st.getD 1 0
    let c := st.getD 2 0
    let d := st.getD 3 0
    let e := st.getD 4 0
    let f := st.getD 5 0
    let g := st.getD 6 0
    let h := st.getD 7 0
    let s1 := (rotr32 6 e) ^^^ (rotr32 11 e) ^^^ (rotr32 25 e)
    let ch := (e &&& f) ^^^ ((e ^^^ 0xffffffff) &&& g)
    let t1 := (h + s1 + ch + k + w) % M32
    let s0 := (rotr32 2 a) ^^^ (rotr32 13 a) ^^^ (rotr32 22 a)
    let mj := (a &&& b) ^^^ (a &&& c) ^^^ (b &&& c)
    let t2 := (s0 + mj) % M32
    shaRounds ks ws [(t1 + t2) % M32, a, b, c, (d + t1) % M32, e, f, g]

def shaChunk (st chunk : List Nat) : List Nat :=
  let w := shaExtend 48 chunk
  let st2 := shaRounds shaK w st
  (st.zip st2).map fun p => (p.1 + p.2) % M32

def shaChunks : Nat → List Nat → List Nat → List Nat
  | 0, _, st => st
  | _ + 1, [], st => st
  | fuel + 1, ws, st => shaChunks fuel (ws.drop 16) (shaChunk st (ws.take 16))

def sha256 (msg : List Nat) : List Nat :=
  let padded := shaPad msg
  let ws := bytesToWords padded.length padded
  ((shaChunks ws.length ws shaInitState).map (toBEBytes 4)).flatten

/-- Double SHA-256, `bitcoin.py`: `sha256d`. -/
def sha256d (msg : List Nat) : List Nat :=
  sha256 (sha256 msg)

theorem sha256_byte_lt (msg : List Nat) : ∀ b ∈ sha256 msg, b < 256 := by
  intro b hb
  simp only [sha256, List.mem_flatten, List.mem_map] at hb
  obtain ⟨l, ⟨x, _, rfl⟩, hbl⟩ := hb
  exact toBEBytes_lt 4 x b hbl

/-! ## Merkle root, proof generation and verification

Embeds `compute_merkle_root`, `generate_merkle_proof`, `verify_merkle_proof`
from `hashcredit_prover/bitcoin.py`.  (`hashcredit_api/proof.py` contains a
byte-for-byte equivalent verifier, `index % 2` in place of `index & 1`.)
The `while len(hashes) > 1` loops become fuel recursion; the initial list
length is always enough fuel, which the lemmas below carry explicitly. -/

/-- One level's odd-count padding: `if len % 2 == 1: hashes.append(hashes[-1])`. -/
def padLevel (hs : List (List Nat)) : List (List Nat) :=
  if hs.length % 2 = 1 then hs ++ [hs.getLastD []] else hs

/-- One level's pair hashing:
`for i in range(0, len(hashes), 2): new.append(sha256d(h[i] + h[i+1]))`
(always applied to an even-length level). -/
def hashPairs : List (List Nat) → List (List Nat)
  | x :: y :: rest => sha256d (x ++ y) :: hashPairs rest
  | [_] => []
  | [] => []

/-- The `while` loop of `compute_merkle_root`, with fuel. -/
def merkleLoop : Nat → List (List Nat) → List Nat
  | 0, hs => hs.headD []
  | fuel + 1, hs =>
    if hs.length ≤ 1 then hs.headD []
    else merkleLoop fuel (hashPairs (padLevel hs))

/-- `compute_merkle_root(txids)`; `none` is the `ValueError` on an empty list. -/
def compute_merkle_root (txids : List (List Nat)) : Option (List Nat) :=
  if txids.isEmpty then none else some (merkleLoop txids.length txids)

/-- The `while` loop of `generate_merkle_proof`; the bound check on
`hashes[sibling_index]` mirrors Python's `IndexError`. -/
def genLoop : Nat → List (List Nat) → Nat → Option (List (List Nat) × List Nat)
  | 0, hs, _ => some ([], hs.headD [])
  | fuel + 1, hs, index =>
    if hs.length ≤ 1 then some ([], hs.headD [])
    else
      let padded := padLevel hs
      if index ^^^ 1 < padded.length then
        match genLoop fuel (hashPairs padded) (index / 2) with
        | some (rest, root) => some (padded.getD (index ^^^ 1) [] :: rest, root)
        | none => none
      else none

/-- `generate_merkle_proof(txids, tx_index)`; `none` covers the two
`ValueError` guards (empty list, index out of range). -/
def generate_merkle_proof (txids : List (List Nat)) (tx_index : Nat) :
    Option (List (List Nat) × List Nat) :=
  if txids.isEmpty then none
  else if txids.length ≤ tx_index then none
  else genLoop txids.length txids tx_index

/-- The `for sibling in proof` loop of `verify_merkle_proof`, returning the
final accumulator. -/
def verifyLoop : List Nat → Nat → List (List Nat) → List Nat
  | cur, _, [] => cur
  | cur, index, sib :: rest =>
    verifyLoop (if index % 2 = 0 then sha256d (cur ++ sib) else sha256d (sib ++ cur))
      (index / 2) rest

/-- `verify_merkle_proof(txid, merkle_root, proof, tx_index)` (identical in
`hashcredit_prover/bitcoin.py` and `hashcredit_api/proof.py`; the prover's
`index & 1 == 0` equals the API's `index % 2 == 0` on naturals). -/
def verify_merkle_proof (txid merkle_root : List Nat) (proof : List (List Nat))
    (tx_index : Nat) : Bool :=
  verifyLoop txid tx_index proof == merkle_root

theorem padLevel_length (hs : List (List Nat)) :
    (padLevel hs).length = if hs.length % 2 = 1 then hs.length + 1 else hs.length := by
  unfold padLevel
  split <;> simp

theorem padLevel_getD (hs : List (List Nat)) (i : Nat) (h : i < hs.length) :
    (padLevel hs).getD i [] = hs.getD i [] := by
  unfold padLevel
  split
  · rw [List.getD_eq_getElem?_getD, List.getElem?_append_left h,
      ← List.getD_eq_getElem?_getD]
  · rfl

theorem hashPairs_length (l : List (List Nat)) :
    (hashPairs l).length = l.length / 2 := by
  match l with
  | [] => simp [hashPairs]
  | [x] => simp [hashPairs]
  | x :: y :: rest => simp [hashPairs, hashPairs_length rest]; omega

theorem hashPairs_getD (l : List (List Nat)) (i : Nat) (h : 2 * i + 1 < l.length) :
    (hashPairs l).getD i [] = sha256d (l.getD (2 * i) [] ++ l.getD (2 * i + 1) []) := by
  match l, i with
  | x :: y :: rest, 0 => simp [hashPairs]
  | x :: y :: rest, i + 1 =>
    have h2 : 2 * i + 1 < rest.length := by simp at h; omega
    have he : 2 * (i + 1) = (2 * i + 1) + 1 := by ring
    rw [he]
    simp only [hashPairs, List.getD_cons_succ]
    exact hashPairs_getD rest i h2
  | [x], i => simp at h
  | [], i => simp at h

theorem nat_xor_one_of_even {n : Nat} (h : n % 2 = 0) : n ^^^ 1 = n + 1 := by
  apply Nat.eq_of_testBit_eq
  intro i
  cases i with
  | zero =>
    have h1 : (n + 1) % 2 = 1 := by omega
    rw [Nat.testBit_xor, Nat.testBit_zero, Nat.testBit_zero, Nat.testBit_zero, h, h1]
    rfl
  | succ i =>
    rw [Nat.testBit_succ, Nat.testBit_succ, Nat.xor_div_two]
    have h2 : (1 : Nat) / 2 = 0 := rfl
    have h3 : (n + 1) / 2 = n / 2 := by omega
    rw [h2, h3, Nat.xor_zero]

theorem nat_xor_one_of_odd {n : Nat} (h : n % 2 = 1) : n ^^^ 1 = n - 1 := by
  have he : (n - 1) % 2 = 0 := by omega
  have h1 : (n - 1) ^^^ 1 = n := by rw [nat_xor_one_of_even he]; omega
  calc n ^^^ 1 = ((n - 1) ^^^ 1) ^^^ 1 := by rw [h1]
    _ = (n - 1) ^^^ (1 ^^^ 1) := by rw [Nat.xor_assoc]
    _ = n - 1 := by simp

/-- Core invariant: on any level with enough fuel and an in-range index, the
generator succeeds, replaying its proof from the indexed leaf reaches the
root, and the root loop computes that same root. -/
theorem genLoop_spec : ∀ (fuel : Nat) (hs : List (List Nat)) (index : Nat),
    hs.length ≤ fuel → index < hs.length →
    ∃ proof root, genLoop fuel hs index = some (proof, root) ∧
      verifyLoop (hs.getD index []) index proof = root ∧
      merkleLoop fuel hs = root := by
  intro fuel
  induction fuel with
  | zero => intro hs index hfuel hidx; omega
  | succ fuel ih =>
    intro hs index hfuel hidx
    by_cases hlen : hs.length ≤ 1
    · have hidx0 : index = 0 := by omega
      refine ⟨[], hs.headD [], ?_, ?_, ?_⟩
      · simp [genLoop, hlen]
      · subst hidx0
        cases hs with
        | nil => simp at hidx
        | cons a t => simp [verifyLoop]
      · simp [merkleLoop, hlen]
    · have hlen2 : 2 ≤ hs.length := by omega
      set padded := padLevel hs with hpad
      have hplen : padded.length = if hs.length % 2 = 1 then hs.length + 1
          else hs.length := padLevel_length hs
      have hpeven : padded.length % 2 = 0 := by split at hplen <;> omega
      have hple : hs.length ≤ padded.length := by split at hplen <;> omega
      have hplt : padded.length ≤ hs.length + 1 := by split at hplen <;> omega
      have hidxp : index < padded.length := lt_of_lt_of_le hidx hple
      have hsib : index ^^^ 1 < padded.length := by
        rcases Nat.even_or_odd index with he | ho
        · have h2 : index % 2 = 0 := Nat.even_iff.mp he
          rw [nat_xor_one_of_even h2]
          omega
        · have h2 : index % 2 = 1 := Nat.odd_iff.mp ho
          rw [nat_xor_one_of_odd h2]
          omega
      have hnextlen : (hashPairs padded).length = padded.length / 2 :=
        hashPairs_length padded
      have hnextfuel : (hashPairs padded).length ≤ fuel := by
        rw [hnextlen]; omega
      have hnextidx : index / 2 < (hashPairs padded).length := by
        rw [hnextlen]; omega
      obtain ⟨proof, root, hgen, hver, hroot⟩ :=
        ih (hashPairs padded) (index / 2) hnextfuel hnextidx
      refine ⟨padded.getD (index ^^^ 1) [] :: proof, root, ?_, ?_, ?_⟩
      · simp only [genLoop, if_neg hlen, ← hpad, if_pos hsib, hgen]
      · have hkey : (hashPairs padded).getD (index / 2) [] =
            (if index % 2 = 0
              then sha256d (hs.getD index [] ++ padded.getD (index ^^^ 1) [])
              else sha256d (padded.getD (index ^^^ 1) [] ++ hs.getD index [])) := by
          have hget := hashPairs_getD padded (index / 2) (by omega)
          rcases Nat.even_or_odd index with he | ho
          · have h2 : index % 2 = 0 := Nat.even_iff.mp he
            have e1 : 2 * (index / 2) = index := by omega
            have e2 : 2 * (index / 2) + 1 = index ^^^ 1 := by
              rw [nat_xor_one_of_even h2]; omega
            rw [hget, e2, e1, if_pos h2, padLevel_getD hs index hidx]
          · have h2 : index % 2 = 1 := Nat.odd_iff.mp ho
            have e1 : 2 * (index / 2) = index ^^^ 1 := by
              rw [nat_xor_one_of_odd h2]; omega
            have e2 : 2 * (index / 2) + 1 = index := by omega
            rw [hget, e2, e1, if_neg (by omega), padLevel_getD hs index hidx]
        calc verifyLoop (hs.getD index []) index
              (padded.getD (index ^^^ 1) [] :: proof)
            = verifyLoop ((hashPairs padded).getD (index / 2) []) (index / 2) proof := by
              rw [verifyLoop, hkey]
          _ = root := hver
      · simp only [merkleLoop, if_neg hlen, ← hpad, hroot]

/-- C1.  For every non-empty leaf list and in-range index, the generated
proof verifies against the generated root from the indexed leaf, and that
root is exactly `compute_merkle_root` of the leaves. -/
theorem C1_merkle_proof_inverts_generator (leaves : List (List Nat)) (i : Nat)
    (hne : leaves ≠ []) (hi : i < leaves.length) :
    ∃ proof root, generate_merkle_proof leaves i = some (proof, root) ∧
      verify_merkle_proof (leaves.getD i []) root proof i = true ∧
      compute_merkle_root leaves = some root := by
  obtain ⟨proof, root, hgen, hver, hroot⟩ :=
    genLoop_spec leaves.length leaves i le_rfl hi
  refine ⟨proof, root, ?_, ?_, ?_⟩
  · have hisEmpty : leaves.isEmpty = false := by
      cases leaves with
      | nil => exact absurd rfl hne
      | cons a t => rfl
    simp [generate_merkle_proof, hisEmpty, Nat.not_le.mpr hi, hgen]
  · show (verifyLoop (leaves.getD i []) i proof == root) = true
    rw [hver, beq_self_eq_true]
  · have hisEmpty : leaves.isEmpty = false := by
      cases leaves with
      | nil => exact absurd rfl hne
      | cons a t => rfl
    simp [compute_merkle_root, hisEmpty, hroot]

/-- C1 witness: the theorem applied to two concrete 32-byte leaves at index 1. -/
theorem C1_merkle_proof_inverts_generator_witness :
    ([List.replicate 32 (0 : Nat), List.replicate 32 1] ≠ []) ∧
    (1 < [List.replicate 32 (0 : Nat), List.replicate 32 1].length) ∧
    (∃ proof root,
      generate_merkle_proof [List.replicate 32 (0 : Nat), List.replicate 32 1] 1 =
        some (proof, root) ∧
      verify_merkle_proof ([List.replicate 32 (0 : Nat), List.replicate 32 1].getD 1 [])
        root proof 1 = true ∧
      compute_merkle_root [List.replicate 32 (0 : Nat), List.replicate 32 1] =
        some root) :=
  ⟨by decide, by decide,
    C1_merkle_proof_inverts_generator _ 1 (by decide) (by decide)⟩

/-- C4 counterexample: with leaf = root (32 bytes) and `tx_index = 1`, the
empty proof still verifies, so "valid iff leaf == root and tx_index == 0"
fails as stated. -/
theorem C4_counterexample :
    ¬ (verify_merkle_proof (List.replicate 32 0) (List.replicate 32 0) [] 1 = true ↔
        (List.replicate 32 (0 : Nat) = List.replicate 32 0 ∧ 1 = 0)) := by
  decide

/-- C4 (amended).  The empty proof verifies exactly when the leaf equals the
root; the verifier never inspects `tx_index` on an empty proof. -/
theorem C4_empty_proof_iff (leaf root : List Nat) (tx_index : Nat) :
    verify_merkle_proof leaf root [] tx_index = true ↔ leaf = root := by
  simp [verify_merkle_proof, verifyLoop]

/-- C7.  Single-leaf trees: the root is the leaf and the proof is empty;
three-leaf trees duplicate the last leaf, giving
`sha256d(sha256d(A||B) || sha256d(C||C))`. -/
theorem C7_merkle_base_shapes (a A B C : List Nat) :
    compute_merkle_root [a] = some a ∧
    generate_merkle_proof [a] 0 = some ([], a) ∧
    compute_merkle_root [A, B, C] =
      some (sha256d (sha256d (A ++ B) ++ sha256d (C ++ C))) := by
  refine ⟨?_, ?_, ?_⟩
  · simp [compute_merkle_root, merkleLoop]
  · simp [generate_merkle_proof, genLoop]
  · simp [compute_merkle_root, merkleLoop, padLevel, hashPairs, List.getLastD]

/-! ## Block header codec and the local proof verifier

Embeds `BlockHeader.from_bytes` / `to_bytes` (`hashcredit_prover/bitcoin.py`)
and `ProofBuilder.verify_proof_locally` (`hashcredit_prover/proof_builder.py`).
The EVM address string `borrower` is modelled as its 160-bit value. -/

structure BlockHeader where
  version : Nat
  prev_block_hash : List Nat
  merkle_root : List Nat
  timestamp : Nat
  bits : Nat
  nonce : Nat
  deriving Repr, DecidableEq

/-- `BlockHeader.from_bytes`; `none` is the `ValueError` on length ≠ 80. -/
def BlockHeader.from_bytes (data : List Nat) : Option BlockHeader :=
  if data.length = 80 then
    some ⟨leBytesToNat (pySlice data 0 4), pySlice data 4 36, pySlice data 36 68,
      leBytesToNat (pySlice data 68 72), leBytesToNat (pySlice data 72 76),
      leBytesToNat (pySlice data 76 80)⟩
  else none

def BlockHeader.to_bytes (h : BlockHeader) : List Nat :=
  toLEBytes 4 h.version ++ h.prev_block_hash ++ h.merkle_root
    ++ toLEBytes 4 h.timestamp ++ toLEBytes 4 h.bits ++ toLEBytes 4 h.nonce

def BlockHeader.block_hash (h : BlockHeader) : List Nat :=
  sha256d h.to_bytes

structure SpvProof where
  checkpoint_height : Nat
  headers : List (List Nat)
  tx_block_index : Nat
  raw_tx : List Nat
  merkle_proof : List (List Nat)
  tx_index : Nat
  output_index : Nat
  borrower : Nat
  deriving Repr, DecidableEq

/-- `ProofBuilder.MIN_CONFIRMATIONS`. -/
def MIN_CONFIRMATIONS : Nat := 6

/-- The header-parsing loop of `verify_proof_locally`: parse each header,
compare `prev_block_hash` against the previous block hash from the second
header on, threading the running hash; `none` is a parse `ValueError`. -/
def linkLoop : Option (List Nat) → List (List Nat) → Option Bool
  | _, [] => some true
  | prev?, hb :: rest =>
    match BlockHeader.from_bytes hb with
    | none => none
    | some header =>
      match prev? with
      | some prev =>
        if header.prev_block_hash = prev then linkLoop (some header.block_hash) rest
        else some false
      | none => linkLoop (some header.block_hash) rest

/-- `ProofBuilder.verify_proof_locally` (which reads only the `proof` field of
its `ProofBuildResult` argument); `none` is an escaped exception. -/
def verify_proof_locally (p : SpvProof) : Option Bool :=
  if p.headers.isEmpty then some false
  else if p.headers.length ≤ p.tx_block_index then some false
  else if p.headers.length - p.tx_block_index < MIN_CONFIRMATIONS then some false
  else
    match linkLoop none p.headers with
    | none => none
    | some false => some false
    | some true =>
      match BlockHeader.from_bytes (p.headers.getD p.tx_block_index []) with
      | none => none
      | some tx_block_header =>
        some (verify_merkle_proof (sha256d p.raw_tx) tx_block_header.merkle_root
          p.merkle_proof p.tx_index)

/-- A well-formed byte string of a given length. -/
def IsBytes (l : List Nat) (n : Nat) : Prop :=
  l.length = n ∧ ∀ b ∈ l, b < 256

instance (l : List Nat) (n : Nat) : Decidable (IsBytes l n) := by
  unfold IsBytes; infer_instance

theorem toLEBytes_leBytesToNat (l : List Nat) (h : ∀ b ∈ l, b < 256) :
    toLEBytes l.length (leBytesToNat l) = l := by
  induction l with
  | nil => rfl
  | cons b bs ih =>
    have hb : b < 256 := h b (List.mem_cons_self _ _)
    have hmod : (b + 256 * leBytesToNat bs) % 256 = b := by omega
    have hdiv : (b + 256 * leBytesToNat bs) / 256 = leBytesToNat bs := by omega
    simp only [List.length_cons, toLEBytes, leBytesToNat, hmod, hdiv]
    rw [ih fun x hx => h x (List.mem_cons_of_mem _ hx)]

theorem pySlice_append_adjacent (data : List Nat) (a b c : Nat)
    (hab : a ≤ b) (hbc : b ≤ c) :
    pySlice data a b ++ pySlice data b c = pySlice data a c := by
  unfold pySlice
  have hd : data.drop b = (data.drop a).drop (b - a) := by
    rw [List.drop_drop]; congr 1; omega
  rw [hd]
  have : c - a = (b - a) + (c - b) := by omega
  rw [this, List.take_add]

theorem pySlice_length (data : List Nat) (a b : Nat) (h : b ≤ data.length)
    (hab : a ≤ b) : (pySlice data a b).length = b - a := by
  unfold pySlice
  rw [List.length_take, List.length_drop]
  omega

theorem pySlice_mem (data : List Nat) (a b : Nat) :
    ∀ x ∈ pySlice data a b, x ∈ data := by
  intro x hx
  unfold pySlice at hx
  exact List.mem_of_mem_drop (List.mem_of_mem_take hx)

/-- Parsing an 80-byte string and reserializing returns the same string; the
parsed fields are the documented slices. -/
theorem BlockHeader.from_bytes_roundtrip (data : List Nat) (hwf : IsBytes data 80) :
    ∃ hd, BlockHeader.from_bytes data = some hd ∧ hd.to_bytes = data ∧
      hd.prev_block_hash = pySlice data 4 36 ∧ hd.merkle_root = pySlice data 36 68 := by
  obtain ⟨hlen, hbytes⟩ := hwf
  refine ⟨_, by rw [BlockHeader.from_bytes, if_pos hlen], ?_, rfl, rfl⟩
  show toLEBytes 4 (leBytesToNat (pySlice data 0 4)) ++ pySlice data 4 36
      ++ pySlice data 36 68 ++ toLEBytes 4 (leBytesToNat (pySlice data 68 72))
      ++ toLEBytes 4 (leBytesToNat (pySlice data 72 76))
      ++ toLEBytes 4 (leBytesToNat (pySlice data 76 80)) = data
  have hs : ∀ a b : Nat, a ≤ b → b ≤ 80 → b - a = 4 →
      toLEBytes 4 (leBytesToNat (pySlice data a b)) = pySlice data a b := by
    intro a b hab hb hw
    have hl : (pySlice data a b).length = 4 := by
      rw [pySlice_length data a b (by omega) hab, hw]
    have := toLEBytes_leBytesToNat (pySlice data a b)
      (fun x hx => hbytes x (pySlice_mem data a b x hx))
    rwa [hl] at this
  rw [hs 0 4 (by omega) (by omega) rfl, hs 68 72 (by omega) (by omega) rfl,
    hs 72 76 (by omega) (by omega) rfl, hs 76 80 (by omega) (by omega) rfl]
  simp only [List.append_assoc]
  rw [pySlice_append_adjacent data 72 76 80 (by omega) (by omega),
    pySlice_append_adjacent data 68 72 80 (by omega) (by omega),
    pySlice_append_adjacent data 36 68 80 (by omega) (by omega),
    pySlice_append_adjacent data 4 36 80 (by omega) (by omega),
    pySlice_append_adjacent data 0 4 80 (by omega) (by omega)]
  show (data.drop 0).take 80 = data
  rw [List.drop_zero]
  exact List.take_of_length_le (by omega)

/-- Boolean transcription of the chain-linkage scan (with optional previous
block hash), used to characterize `linkLoop`. -/
def chainB : Option (List Nat) → List (List Nat) → Bool
  | _, [] => true
  | none, h :: rest => chainB (some (sha256d h)) rest
  | some prev, h :: rest => (pySlice h 4 36 == prev) && chainB (some (sha256d h)) rest

/-- On well-formed headers, the parse-and-link loop computes exactly the
`chainB` scan (and never raises). -/
theorem linkLoop_eq_chainB : ∀ (headers : List (List Nat)) (prev? : Option (List Nat)),
    (∀ h ∈ headers, IsBytes h 80) →
    linkLoop prev? headers = some (chainB prev? headers) := by
  intro headers
  induction headers with
  | nil => intro prev? _; cases prev? <;> rfl
  | cons hb rest ih =>
    intro prev? hwf
    obtain ⟨hd, hparse, hser, hprev, _⟩ :=
      BlockHeader.from_bytes_roundtrip hb (hwf hb (List.mem_cons_self _ _))
    have hrest : ∀ h ∈ rest, IsBytes h 80 :=
      fun h hh => hwf h (List.mem_cons_of_mem _ hh)
    have hbh : hd.block_hash = sha256d hb := by
      rw [BlockHeader.block_hash, hser]
    cases prev? with
    | none =>
      show (match BlockHeader.from_bytes hb with
        | none => none
        | some header => linkLoop (some header.block_hash) rest) =
        some (chainB (some (sha256d hb)) rest)
      rw [hparse]
      simp only [hbh]
      exact ih (some (sha256d hb)) hrest
    | some prev =>
      show (match BlockHeader.from_bytes hb with
        | none => none
        | some header =>
          if header.prev_block_hash = prev then linkLoop (some header.block_hash) rest
          else some false) =
        some (chainB (some prev) (hb :: rest))
      rw [hparse]
      simp only [hprev, hbh, chainB]
      by_cases heq : pySlice hb 4 36 = prev
      · rw [if_pos heq, ih (some (sha256d hb)) hrest]
        simp [heq]
      · rw [if_neg heq]
        simp [heq]

/-- `chainB` from a known previous hash, as a positional condition. -/
theorem chainB_some_iff : ∀ (headers : List (List Nat)) (prev : List Nat),
    chainB (some prev) headers = true ↔
      ∀ i, i < headers.length →
        pySlice (headers.getD i []) 4 36 =
          (if i = 0 then prev else sha256d (headers.getD (i - 1) [])) := by
  intro headers
  induction headers with
  | nil => intro prev; simp [chainB]
  | cons hb rest ih =>
    intro prev
    simp only [chainB, Bool.and_eq_true, beq_iff_eq, ih (sha256d hb)]
    constructor
    · rintro ⟨h0, hrest⟩ i hi
      cases i with
      | zero => simpa using h0
      | succ j =>
        have hj : j < rest.length := by simpa using hi
        have := hrest j hj
        simp only [List.getD_cons_succ, if_neg (Nat.succ_ne_zero j), Nat.succ_sub_one]
        cases j with
        | zero => simpa using this
        | succ k => simpa using this
    · intro hall
      refine ⟨by simpa using hall 0 (by simp), ?_⟩
      intro j hj
      have := hall (j + 1) (by simpa using hj)
      simp only [List.getD_cons_succ, if_neg (Nat.succ_ne_zero j), Nat.succ_sub_one] at this
      cases j with
      | zero => simpa using this
      | succ k => simpa using this

/-- `chainB` from the start of the chain: every header from the second on
commits to the double-SHA-256 of its predecessor's bytes. -/
theorem chainB_none_iff (headers : List (List Nat)) :
    chainB none headers = true ↔
      ∀ i, 0 < i → i < headers.length →
        pySlice (headers.getD i []) 4 36 = sha256d (headers.getD (i - 1) []) := by
  cases headers with
  | nil => simp [chainB]
  | cons hb rest =>
    show chainB (some (sha256d hb)) rest = true ↔ _
    rw [chainB_some_iff]
    constructor
    · intro hall i hpos hi
      obtain ⟨j, rfl⟩ : ∃ j, i = j + 1 := ⟨i - 1, by omega⟩
      have := hall j (by simpa using hi)
      simp only [List.getD_cons_succ, Nat.succ_sub_one]
      cases j with
      | zero => simpa using this
      | succ k => simpa using this
    · intro hall j hj
      have := hall (j + 1) (by omega) (by simpa using hj)
      simp only [List.getD_cons_succ, Nat.succ_sub_one] at this
      cases j with
      | zero => simpa using this
      | succ k => simpa using this

/-- C6.  For headers that are genuine 80-byte strings, the local verifier
accepts exactly when: the header list is non-empty, `tx_block_index` is in
range, confirmations (`len(headers) - tx_block_index`) reach 6, every header
from the second on stores `sha256d` of its predecessor in its `prev_hash`
field (bytes 4..36), and the Merkle proof replays from `sha256d(raw_tx)` at
position `tx_index` to the target header's `merkle_root` (bytes 36..68).
In particular it returns false whenever the linkage equality fails anywhere. -/
theorem C6_verify_proof_locally_iff (p : SpvProof)
    (hwf : ∀ h ∈ p.headers, IsBytes h 80) :
    verify_proof_locally p = some true ↔
      (p.headers ≠ [] ∧ p.tx_block_index < p.headers.length ∧
        MIN_CONFIRMATIONS ≤ p.headers.length - p.tx_block_index ∧
        (∀ i, i < p.headers.length → 0 < i →
          pySlice (p.headers.getD i []) 4 36 = sha256d (p.headers.getD (i - 1) [])) ∧
        verify_merkle_proof (sha256d p.raw_tx)
          (pySlice (p.headers.getD p.tx_block_index []) 36 68)
          p.merkle_proof p.tx_index = true) := by
  unfold verify_proof_locally
  by_cases hemp : p.headers.isEmpty
  · have : p.headers = [] := List.isEmpty_iff.mp hemp
    simp [hemp, this]
  · have hne : p.headers ≠ [] := fun h => hemp (by simp [h])
    rw [if_neg hemp]
    by_cases hidx : p.headers.length ≤ p.tx_block_index
    · simp only [if_pos hidx]
      constructor
      · intro h; exact absurd h (by simp)
      · rintro ⟨_, hlt, _, _, _⟩; omega
    · rw [if_neg hidx]
      by_cases hconf : p.headers.length - p.tx_block_index < MIN_CONFIRMATIONS
      · simp only [if_pos hconf]
        constructor
        · intro h; exact absurd h (by simp)
        · rintro ⟨_, _, hge, _, _⟩; omega
      · rw [if_neg hconf]
        rw [linkLoop_eq_chainB p.headers none hwf]
        by_cases hchain : chainB none p.headers = true
        · have hlt : p.tx_block_index < p.headers.length := by omega
          have hmem : p.headers.getD p.tx_block_index [] ∈ p.headers := by
            rw [List.getD_eq_getElem?_getD, List.getElem?_eq_getElem hlt]
            exact List.getElem_mem hlt
          obtain ⟨hd, hparse, hser, hprev, hroot⟩ :=
            BlockHeader.from_bytes_roundtrip _ (hwf _ hmem)
          simp only [hchain, hparse, hroot, Option.some.injEq]
          constructor
          · intro h
            exact ⟨hne, by omega, by omega,
              fun i hi hpos => ((chainB_none_iff p.headers).mp hchain) i hpos hi, h⟩
          · rintro ⟨_, _, _, _, hm⟩
            exact hm
        · have hfalse : chainB none p.headers = false := by
            cases hc : chainB none p.headers
            · rfl
            · exact absurd hc hchain
          simp only [hfalse]
          constructor
          · intro h; exact absurd h (by simp)
          · rintro ⟨_, _, _, hlink, _⟩
            exact absurd
              ((chainB_none_iff p.headers).mpr fun i hpos hi => hlink i hi hpos) hchain

/-- A synthetic 80-byte header (version 1, zero timestamp/bits/nonce). -/
def c6Hdr (prev root : List Nat) : List Nat :=
  toLEBytes 4 1 ++ prev ++ root ++ toLEBytes 4 0 ++ toLEBytes 4 0 ++ toLEBytes 4 0

def c6Z32 : List Nat := List.replicate 32 0

def c6RawTx : List Nat := [1]

/-- `sha256d c6RawTx` as a literal. -/
def c6Txid : List Nat :=
  [156, 18, 207, 220, 4, 199, 69, 132, 215, 135, 172, 61, 35, 119, 33, 50,
   193, 133, 36, 188, 122, 178, 141, 236, 66, 25, 184, 252, 91, 66, 95, 112]

/-- The six-header synthetic chain: block hashes of the predecessors as
literals, the first header committing to `c6Txid` as its Merkle root. -/
def c6Headers : List (List Nat) :=
  [c6Hdr c6Z32 c6Txid,
   c6Hdr [242, 106, 172, 171, 48, 61, 53, 163, 239, 4, 229, 139, 43, 125, 84, 176,
          90, 255, 197, 224, 217, 8, 113, 9, 35, 132, 132, 252, 222, 221, 47, 228] c6Z32,
   c6Hdr [61, 129, 70, 82, 127, 38, 10, 10, 197, 246, 195, 207, 238, 54, 245, 247,
          58, 7, 34, 225, 124, 37, 95, 163, 39, 173, 196, 250, 187, 252, 49, 158] c6Z32,
   c6Hdr [188, 60, 69, 172, 163, 49, 22, 135, 104, 213, 229, 30, 4, 204, 200, 41,
          110, 221, 215, 109, 223, 38, 37, 243, 124, 167, 79, 20, 3, 60, 167, 158] c6Z32,
   c6Hdr [174, 93, 151, 170, 166, 91, 125, 61, 53, 140, 14, 0, 175, 181, 127, 229,
          78, 254, 79, 96, 118, 146, 156, 70, 135, 148, 117, 227, 133, 219, 57, 31] c6Z32,
   c6Hdr [126, 154, 218, 210, 116, 54, 54, 45, 133, 36, 179, 214, 62, 38, 172, 36,
          201, 78, 94, 211, 71, 248, 215, 241, 221, 94, 122, 98, 161, 29, 5, 165] c6Z32]

def c6Proof : SpvProof :=
  ⟨0, c6Headers, 0, c6RawTx, [], 0, 0, 0⟩

/-- C6 witness: the characterization applied to a concrete linked six-header
chain containing a one-transaction block; the verifier accepts it. -/
theorem C6_verify_proof_locally_iff_witness :
    verify_proof_locally c6Proof = some true :=
  (C6_verify_proof_locally_iff c6Proof (by decide)).mpr
    ⟨by decide, by decide, by decide, by decide, by decide⟩

/-! ## Payout store

Embeds `PayoutStore` from `hashcredit_prover/watcher.py` as a pure state
machine over the two tables.  SQL semantics kept:
* `add_pending` is `INSERT OR IGNORE` into `pending_payouts`, whose primary
  key is `(txid, output_index)` — the conflict check sees only the pending
  table;
* `mark_submitted` reads the pending row, and when present does a plain
  `INSERT` into `submitted_payouts` (an `IntegrityError`, modelled as `none`,
  if that key is already submitted) plus a `DELETE` from pending, in one
  transaction; when absent it is a no-op;
* timestamps (`datetime`) are `Nat` parameters. -/

structure PendingPayout where
  txid : String
  output_index : Nat
  borrower : String
  btc_address : String
  amount_sats : Nat
  block_height : Nat
  block_hash : String
  first_seen : Nat
  deriving Repr, DecidableEq

structure SubmittedPayout where
  txid : String
  output_index : Nat
  borrower : String
  amount_sats : Nat
  block_height : Nat
  submitted_at : Nat
  evm_tx_hash : String
  deriving Repr, DecidableEq

structure PayoutStore where
  pending : List PendingPayout
  submitted : List SubmittedPayout
  deriving Repr, DecidableEq

def pendingHas (s : PayoutStore) (txid : String) (oi : Nat) : Bool :=
  s.pending.any fun r => r.txid == txid && r.output_index == oi

def submittedHas (s : PayoutStore) (txid : String) (oi : Nat) : Bool :=
  s.submitted.any fun r => r.txid == txid && r.output_index == oi

/-- `PayoutStore.add_pending` (returns the new state and the inserted flag). -/
def add_pending (s : PayoutStore) (p : PendingPayout) : PayoutStore × Bool :=
  if pendingHas s p.txid p.output_index then (s, false)
  else ({ s with pending := s.pending ++ [p] }, true)

/-- `PayoutStore.mark_submitted`; `none` is the primary-key `IntegrityError`
on the submitted-table insert. -/
def mark_submitted (s : PayoutStore) (txid : String) (oi : Nat)
    (evm_tx_hash : String) (now : Nat) : Option PayoutStore :=
  match s.pending.find? (fun r => r.txid == txid && r.output_index == oi) with
  | none => some s
  | some row =>
    if submittedHas s txid oi then none
    else some
      { pending := s.pending.filter fun r => !(r.txid == txid && r.output_index == oi),
        submitted := s.submitted ++
          [⟨txid, oi, row.borrower, row.amount_sats, row.block_height, now, evm_tx_hash⟩] }

/-- `PayoutStore.is_submitted`. -/
def is_submitted (s : PayoutStore) (txid : String) (oi : Nat) : Bool :=
  submittedHas s txid oi

/-- `PayoutStore.get_pending`. -/
def get_pending (s : PayoutStore) : List PendingPayout :=
  s.pending

/-- `PayoutStore.remove_pending`. -/
def remove_pending (s : PayoutStore) (txid : String) (oi : Nat) : PayoutStore :=
  { s with pending := s.pending.filter fun r => !(r.txid == txid && r.output_index == oi) }

inductive StoreOp where
  | add (p : PendingPayout)
  | mark (txid : String) (oi : Nat) (evm_tx_hash : String) (now : Nat)
  | remove (txid : String) (oi : Nat)
  deriving Repr, DecidableEq

def runOp (s : PayoutStore) : StoreOp → Option PayoutStore
  | .add p => some (add_pending s p).1
  | .mark t oi h now => mark_submitted s t oi h now
  | .remove t oi => some (remove_pending s t oi)

def runOps (s : PayoutStore) : List StoreOp → Option PayoutStore
  | [] => some s
  | op :: ops =>
    match runOp s op with
    | none => none
    | some s2 => runOps s2 ops

/-- The claimed invariant, as a decidable scan: no pending key is submitted. -/
def storeDisjoint (s : PayoutStore) : Bool :=
  s.pending.all fun r => !(submittedHas s r.txid r.output_index)

def c8Row : PendingPayout :=
  ⟨"t", 0, "b", "addr", 5, 100, "bh", 3⟩

/-- Run a boolean check on the final state of an operation sequence
(false when the sequence raised). -/
def storeCheck (s? : Option PayoutStore) (f : PayoutStore → Bool) : Bool :=
  match s? with
  | some s => f s
  | none => false

/-- C8 counterexample: the sequence add, mark_submitted, add on one key ends
with the key in both tables (disjointness broken), and the second
`add_pending` of the same key returns true again — refuting both the
always-disjoint invariant and "true only on the first insertion". -/
theorem C8_counterexample :
    storeCheck (runOps ⟨[], []⟩
        [StoreOp.add c8Row, StoreOp.mark "t" 0 "0xabc" 7, StoreOp.add c8Row])
      (fun s => !storeDisjoint s && pendingHas s "t" 0 && is_submitted s "t" 0) = true ∧
    storeCheck (runOps ⟨[], []⟩ [StoreOp.add c8Row, StoreOp.mark "t" 0 "0xabc" 7])
      (fun s => (add_pending s c8Row).2) = true := by
  constructor <;> decide

/-- C8 (amended).  `add_pending` returns true exactly when the key is absent
from pending (and leaves the state unchanged on a duplicate pending key);
`mark_submitted` is a no-op without a pending row, and with one (the key not
yet submitted) it atomically moves the row: afterwards the key is submitted
and absent from `get_pending`; disjointness of the two tables is preserved by
every operation except `add_pending` of a key already in `submitted`. -/
theorem C8_store_semantics (s : PayoutStore) (p : PendingPayout)
    (txid : String) (oi : Nat) (evm_tx_hash : String) (now : Nat) :
    ((add_pending s p).2 = !(pendingHas s p.txid p.output_index)) ∧
    (pendingHas s p.txid p.output_index = true → (add_pending s p).1 = s) ∧
    (pendingHas s txid oi = false → mark_submitted s txid oi evm_tx_hash now = some s) ∧
    (pendingHas s txid oi = true → submittedHas s txid oi = false →
      ∃ s2, mark_submitted s txid oi evm_tx_hash now = some s2 ∧
        is_submitted s2 txid oi = true ∧
        ∀ r ∈ get_pending s2, ¬(r.txid = txid ∧ r.output_index = oi)) ∧
    (storeDisjoint s = true → submittedHas s p.txid p.output_index = false →
      storeDisjoint (add_pending s p).1 = true) ∧
    (storeDisjoint s = true → ∀ s2, mark_submitted s txid oi evm_tx_hash now = some s2 →
      storeDisjoint s2 = true) ∧
    (storeDisjoint s = true → storeDisjoint (remove_pending s txid oi) = true) := by
  refine ⟨?_, ?_, ?_, ?_, ?_, ?_, ?_⟩
  · unfold add_pending
    cases h : pendingHas s p.txid p.output_index <;> simp [h]
  · intro h
    unfold add_pending
    rw [if_pos h]
  · intro hp
    have hfind : s.pending.find? (fun r => r.txid == txid && r.output_index == oi) = none := by
      rw [List.find?_eq_none]
      intro r hr hcontra
      rw [pendingHas] at hp
      have hany : s.pending.any (fun r => r.txid == txid && r.output_index == oi) = true :=
        List.any_eq_true.mpr ⟨r, hr, hcontra⟩
      rw [hany] at hp
      cases hp
    unfold mark_submitted
    rw [hfind]
  · intro hp hsub
    obtain ⟨row, hfr⟩ : ∃ row,
        s.pending.find? (fun r => r.txid == txid && r.output_index == oi) = some row := by
      apply Option.isSome_iff_exists.mp
      rw [List.find?_isSome]
      rw [pendingHas, List.any_eq_true] at hp
      exact hp
    refine ⟨⟨s.pending.filter fun r => !(r.txid == txid && r.output_index == oi),
      s.submitted ++
        [⟨txid, oi, row.borrower, row.amount_sats, row.block_height, now, evm_tx_hash⟩]⟩,
      ?_, ?_, ?_⟩
    · unfold mark_submitted
      simp only [hfr, hsub]
      rfl
    · simp [is_submitted, submittedHas]
    · intro r hr
      simp only [get_pending, List.mem_filter] at hr
      rintro ⟨h1, h2⟩
      have hflt := hr.2
      simp [h1, h2] at hflt
  · intro hdisj hsub
    unfold add_pending
    by_cases h : pendingHas s p.txid p.output_index = true
    · rw [if_pos h]
      exact hdisj
    · rw [if_neg h]
      rw [storeDisjoint, List.all_eq_true] at hdisj ⊢
      intro r hr
      simp only [List.mem_append, List.mem_singleton] at hr
      rcases hr with hr | rfl
      · have := hdisj r hr
        simpa [submittedHas] using this
      · simpa [submittedHas] using hsub
  · intro hdisj s2 hmark
    unfold mark_submitted at hmark
    cases hfr : s.pending.find? (fun r => r.txid == txid && r.output_index == oi) with
    | none =>
      rw [hfr] at hmark
      cases hmark
      exact hdisj
    | some row =>
      rw [hfr] at hmark
      by_cases hsub : submittedHas s txid oi = true
      · simp only [hsub] at hmark
        cases hmark
      · have hsubf : submittedHas s txid oi = false := by
          cases hc : submittedHas s txid oi
          · rfl
          · exact absurd hc hsub
        simp only [hsubf] at hmark
        rw [show (if (false = true) then (none : Option PayoutStore) else some _) = some _
          from if_neg (by simp)] at hmark
        cases hmark
        rw [storeDisjoint, List.all_eq_true] at hdisj ⊢
        intro r hr
        simp only [List.mem_filter] at hr
        obtain ⟨hrmem, hflt⟩ := hr
        have hold := hdisj r hrmem
        simp only [Bool.not_eq_eq_eq_not, Bool.not_true, submittedHas,
          List.any_eq_false] at hold ⊢
        intro x hx
        simp only [List.mem_append, List.mem_singleton] at hx
        rcases hx with hx | rfl
        · exact hold x hx
        · simp only [Bool.and_eq_true, beq_iff_eq, not_and]
          rintro h1 h2
          simp [h1, h2] at hflt
  · intro hdisj
    rw [storeDisjoint, List.all_eq_true] at hdisj ⊢
    intro r hr
    simp only [remove_pending, List.mem_filter] at hr
    have := hdisj r hr.1
    simpa [submittedHas] using this


/-- C8 witness: the amended semantics applied to a concrete one-row store. -/
theorem C8_store_semantics_witness :
    (pendingHas ⟨[c8Row], []⟩ "t" 0 = true) ∧
    (submittedHas ⟨[c8Row], []⟩ "t" 0 = false) ∧
    (∃ s2, mark_submitted ⟨[c8Row], []⟩ "t" 0 "0xabc" 7 = some s2 ∧
      is_submitted s2 "t" 0 = true ∧
      ∀ r ∈ get_pending s2, ¬(r.txid = "t" ∧ r.output_index = 0)) :=
  ⟨by decide, by decide,
    (C8_store_semantics ⟨[c8Row], []⟩ c8Row "t" 0 "0xabc" 7).2.2.2.1
      (by decide) (by decide)⟩

/-! ## Bitcoin address decoders

Embeds the Bech32 (BIP-173) and Base58Check decoders.  The shared Bech32
primitives (`bech32_polymod`, `bech32_hrp_expand`, checksum verification,
`convert_bits`) are numerically identical in `hashcredit_prover/address.py`
and `hashcredit_api/address.py` and embedded once; the two
`decode_btc_address` front ends differ and are embedded separately in the
`Prover` and `Api` namespaces.  Strings are processed as `List Char`;
`pyLower` models `str.lower()` on the ASCII range the decoders accept. -/

def pyLowerChar (c : Char) : Char :=
  if 'A' ≤ c ∧ c ≤ 'Z' then Char.ofNat (c.toNat + 32) else c

def pyLower (s : List Char) : List Char :=
  s.map pyLowerChar

/-- Python `s.startswith(t)`. -/
def pyStartsWith (s t : List Char) : Bool :=
  List.isPrefixOf t s

/-- Python `s.rfind(c)` (as an `Option`; `-1` becomes `none`). -/
def lastIndexOf (l : List Char) (c : Char) : Option Nat :=
  match l.reverse.findIdx? (· == c) with
  | none => none
  | some j => some (l.length - 1 - j)

def BECH32_CHARSET : List Char := "qpzry9x8gf2tvdw0s3jn54khce6mua7l".toList

def bech32CharIndex (c : Char) : Option Nat :=
  BECH32_CHARSET.findIdx? (· == c)

def BECH32_GEN : List Nat :=
  [0x3B6A57B2, 0x26508E6D, 0x1EA119FA, 0x3D4233DD, 0x2A1462B3]

/-- `bech32_polymod` (identical in both source files). -/
def bech32_polymod (values : List Nat) : Nat :=
  values.foldl
    (fun chk v =>
      let b := chk >>> 25
      let chk2 := ((chk &&& 0x1FFFFFF) <<< 5) ^^^ v
      (List.range 5).foldl
        (fun c i => if (b >>> i) &&& 1 = 1 then c ^^^ BECH32_GEN.getD i 0 else c) chk2)
    1

def bech32_hrp_expand (hrp : List Char) : List Nat :=
  hrp.map (fun c => c.toNat >>> 5) ++ [0] ++ hrp.map (fun c => c.toNat &&& 31)

def bech32_verify_checksum (hrp : List Char) (data : List Nat) : Bool :=
  bech32_polymod (bech32_hrp_expand hrp ++ data) == 1

/-- The `while bits >= tobits` inner loop of `convert_bits` (fuel: the
current bit count suffices since `tobits ≥ 1` in every use). -/
def convertInner (tobits maxv acc : Nat) : Nat → Nat → List Nat → Nat × List Nat
  | 0, bits, ret => (bits, ret)
  | fuel + 1, bits, ret =>
    if tobits ≤ bits then
      convertInner tobits maxv acc fuel (bits - tobits)
        (ret ++ [(acc >>> (bits - tobits)) &&& maxv])
    else (bits, ret)

/-- `convert_bits(data, frombits, tobits, pad)` (identical in both files). -/
def convert_bits (data : List Nat) (frombits tobits : Nat) (pad : Bool) :
    Option (List Nat) :=
  go data 0 0 []
where
  go : List Nat → Nat → Nat → List Nat → Option (List Nat)
    | [], acc, bits, ret =>
      if pad then
        if bits ≠ 0 then some (ret ++ [(acc <<< (tobits - bits)) &&& ((1 <<< tobits) - 1)])
        else some ret
      else if frombits ≤ bits ∨ (acc <<< (tobits - bits)) &&& ((1 <<< tobits) - 1) ≠ 0 then
        none
      else some ret
    | v :: rest, acc, bits, ret =>
      if v >>> frombits ≠ 0 then none
      else
        let acc2 := ((acc <<< frombits) ||| v) &&& ((1 <<< (frombits + tobits - 1)) - 1)
        let br := convertInner tobits ((1 <<< tobits) - 1) acc2 (bits + frombits)
          (bits + frombits) ret
        go rest acc2 br.1 br.2

namespace Prover

/-- `hashcredit_prover/address.py`: `bech32_decode`.  Returns the HRP and
`bytes([version]) + converted-program` on success. -/
def bech32_decode (address : List Char) : Option (List Char × List Nat) :=
  let addr := pyLower address
  match lastIndexOf addr '1' with
  | none => none
  | some pos =>
    if pos < 1 ∨ addr.length < pos + 7 then none
    else
      let hrp := addr.take pos
      let dataPart := addr.drop (pos + 1)
      match dataPart.mapM bech32CharIndex with
      | none => none
      | some data =>
        if ¬ bech32_verify_checksum hrp data then none
        else
          let data2 := data.take (data.length - 6)
          if data2.length < 1 then none
          else
            let version := data2.headD 0
            match convert_bits (data2.drop 1) 5 8 false with
            | none => none
            | some converted =>
              if version = 0 ∧ converted.length ≠ 20 ∧ converted.length ≠ 32 then none
              else some (hrp, version :: converted)

def BASE58_ALPHABET : List Char :=
  "123456789ABCDEFGHJKLMNPQRSTUVWXYZabcdefghijkmnopqrstuvwxyz".toList

def base58CharIndex (c : Char) : Option Nat :=
  BASE58_ALPHABET.findIdx? (· == c)

/-- Minimal big-endian byte string of a natural (the prover's
`while num > 0` loop); fuel: one byte per base-58 digit is enough. -/
def natBytesBE : Nat → Nat → List Nat
  | 0, _ => []
  | fuel + 1, n => if n = 0 then [] else natBytesBE fuel (n / 256) ++ [n % 256]

/-- `hashcredit_prover/address.py`: `base58_decode`. -/
def base58_decode (s : List Char) : Option (List Nat) :=
  match s.mapM base58CharIndex with
  | none => none
  | some idxs =>
    let num := idxs.foldl (fun n i => n * 58 + i) 0
    let padSize := (s.takeWhile (· == '1')).length
    some (List.replicate padSize 0 ++ natBytesBE s.length num)

/-- `hashcredit_prover/address.py`: `base58check_decode`. -/
def base58check_decode (s : List Char) : Option (Nat × List Nat) :=
  match base58_decode s with
  | none => none
  | some data =>
    if data.length < 5 then none
    else
      let checksum := data.drop (data.length - 4)
      let payload := data.take (data.length - 4)
      if checksum ≠ (sha256d payload).take 4 then none
      else some (payload.headD 0, payload.drop 1)

/-- The Base58Check fallback branch of the prover's `decode_btc_address`. -/
def decodeBase58Branch (address : List Char) : Option (List Nat × String) :=
  match base58check_decode address with
  | none => none
  | some (version, payload) =>
    if (version = 0 ∨ version = 0x6F) ∧ payload.length = 20 then some (payload, "p2pkh")
    else none

/-- `hashcredit_prover/address.py`: `decode_btc_address`.  Note the dispatch
tuple: only `bc1` and `tb1` reach the Bech32 path. -/
def decode_btc_address (address : List Char) : Option (List Nat × String) :=
  if pyStartsWith (pyLower address) "bc1".toList ∨
      pyStartsWith (pyLower address) "tb1".toList then
    match bech32_decode address with
    | none => none
    | some (hrp, data) =>
      if ¬ (hrp = "bc".toList ∨ hrp = "tb".toList) then none
      else if data.length = 21 ∧ data.headD 99 = 0 then some (data.drop 1, "p2wpkh")
      else none
  else decodeBase58Branch address

end Prover

namespace Api

/-- `hashcredit_api/address.py`: `decode_bech32`.  Returns HRP and the 5-bit
data with the checksum stripped. -/
def decode_bech32 (address : List Char) : Option (List Char × List Nat) :=
  if address.any (fun c => c.toNat < 33 ∨ 126 < c.toNat) then none
  else
    let addr := pyLower address
    match lastIndexOf addr '1' with
    | none => none
    | some pos =>
      if pos < 1 ∨ addr.length < pos + 7 then none
      else
        let hrp := addr.take pos
        let dataPart := addr.drop (pos + 1)
        match dataPart.mapM bech32CharIndex with
        | none => none
        | some data =>
          if ¬ bech32_verify_checksum hrp data then none
          else some (hrp, data.take (data.length - 6))

/-- `hashcredit_api/address.py`: `decode_bech32_address`. -/
def decode_bech32_address (address : List Char) : Option (List Nat × String) :=
  match decode_bech32 address with
  | none => none
  | some (hrp, data) =>
    if ¬ (hrp = "bc".toList ∨ hrp = "tb".toList ∨ hrp = "bcrt".toList) then none
    else if data.length < 1 then none
    else if data.headD 0 ≠ 0 then none
    else
      match convert_bits (data.drop 1) 5 8 false with
      | none => none
      | some decoded =>
        if decoded.length = 20 then some (decoded, "p2wpkh") else none

def BASE58_CHARSET : List Char :=
  "123456789ABCDEFGHJKLMNPQRSTUVWXYZabcdefghijkmnopqrstuvwxyz".toList

/-- `hashcredit_api/address.py`: `decode_base58check` (fixed 25-byte
`num.to_bytes`; the `OverflowError` on longer inputs is modelled as `none`). -/
def decode_base58check (addr : List Char) : Option (List Nat) :=
  match addr.mapM (fun c => BASE58_CHARSET.findIdx? (· == c)) with
  | none => none
  | some idxs =>
    let num := idxs.foldl (fun n i => n * 58 + i) 0
    if 2 ^ (8 * 25) ≤ num then none
    else
      let combined := toBEBytes 25 num
      let checksum := combined.drop 21
      let data := combined.take 21
      if checksum ≠ (sha256d data).take 4 then none
      else some (data.drop 1)

/-- `hashcredit_api/address.py`: `decode_p2pkh_address`. -/
def decode_p2pkh_address (addr : List Char) : Option (List Nat × String) :=
  match addr with
  | [] => none
  | first :: _ =>
    if ¬ (first = '1' ∨ first = 'm' ∨ first = 'n') then none
    else
      match decode_base58check addr with
      | none => none
      | some payload =>
        if payload.length ≠ 20 then none
        else some (payload, "p2pkh")

/-- `hashcredit_api/address.py`: `decode_btc_address` (dispatch includes
`bcrt1`). -/
def decode_btc_address (addr : List Char) : Option (List Nat × String) :=
  if pyStartsWith (pyLower addr) "bc1".toList ∨
      pyStartsWith (pyLower addr) "tb1".toList ∨
      pyStartsWith (pyLower addr) "bcrt1".toList then
    decode_bech32_address addr
  else decode_p2pkh_address addr

end Api

def bcrtAddr : List Char := "bcrt1qw508d6qejxtdg4y5r3zarvary0c5xw7kygt080".toList

def bcrtProgram : List Nat :=
  [0x75, 0x1e, 0x76, 0xe8, 0x19, 0x91, 0x96, 0xd4, 0x54, 0x94,
   0x1c, 0x45, 0xd1, 0xb3, 0xa3, 0x23, 0xf1, 0x43, 0x3b, 0xd6]

/-- C10 counterexample: on the checksum-valid regtest P2WPKH address
`bcrt1qw508d6qejxtdg4y5r3zarvary0c5xw7kygt080` (the BIP-173 program
`751e76e8...3bd6`), the prover's `decode_btc_address` returns `None`
(its dispatch tuple lacks `bcrt1`, and the Base58Check fallback rejects the
address), while the API's decoder accepts it. -/
theorem C10_counterexample :
    Prover.decode_btc_address bcrtAddr = none ∧
    Api.decode_btc_address bcrtAddr = some (bcrtProgram, "p2wpkh") := by
  constructor <;> decide

/-- The API front end sends every `bc1`/`tb1`/`bcrt1` address (of its
lowercase form) to the Bech32 path. -/
theorem api_decode_dispatch_bech32 (addr : List Char)
    (h : (pyStartsWith (pyLower addr) "bc1".toList ∨
          pyStartsWith (pyLower addr) "tb1".toList ∨
          pyStartsWith (pyLower addr) "bcrt1".toList)) :
    Api.decode_btc_address addr = Api.decode_bech32_address addr := by
  unfold Api.decode_btc_address
  rw [if_pos h]

/-- Whatever the API's Bech32 address decoder accepts is a 20-byte
witness-version-0 program labelled `p2wpkh`, obtained from a successful
`decode_bech32` with an accepted HRP. -/
theorem api_bech32_accepts_only_v0_20 (addr : List Char) (h : List Nat) (t : String)
    (heq : Api.decode_bech32_address addr = some (h, t)) :
    t = "p2wpkh" ∧ h.length = 20 ∧
      ∃ hrp data, Api.decode_bech32 addr = some (hrp, data) ∧
        (hrp = "bc".toList ∨ hrp = "tb".toList ∨ hrp = "bcrt".toList) ∧
        data.headD 0 = 0 := by
  unfold Api.decode_bech32_address at heq
  cases hdec : Api.decode_bech32 addr with
  | none => simp only [hdec] at heq; exact Option.noConfusion heq
  | some pr =>
    obtain ⟨hrp, data⟩ := pr
    simp only [hdec] at heq
    by_cases h1 : hrp = "bc".toList ∨ hrp = "tb".toList ∨ hrp = "bcrt".toList
    · rw [if_neg (not_not_intro h1)] at heq
      by_cases h2 : data.length < 1
      · rw [if_pos h2] at heq; cases heq
      · rw [if_neg h2] at heq
        by_cases h3 : data.headD 0 ≠ 0
        · rw [if_pos h3] at heq; cases heq
        · rw [if_neg h3] at heq
          cases hcv : convert_bits (data.drop 1) 5 8 false with
          | none => simp only [hcv] at heq; exact Option.noConfusion heq
          | some decoded =>
            simp only [hcv] at heq
            by_cases h4 : decoded.length = 20
            · rw [if_pos h4] at heq
              obtain ⟨rfl, rfl⟩ : decoded = h ∧ "p2wpkh" = t := by
                cases heq; exact ⟨rfl, rfl⟩
              exact ⟨rfl, h4, hrp, data, rfl, h1, by simpa using h3⟩
            · rw [if_neg h4] at heq; cases heq
    · rw [if_pos h1] at heq; cases heq

/-- A successful `decode_bech32` means the polymod checksum verified: the
returned data extends to a full 5-bit string passing
`bech32_verify_checksum` for the returned HRP, whose last six values were
stripped. -/
theorem api_decode_bech32_checksum (addr hrp : List Char) (data : List Nat)
    (heq : Api.decode_bech32 addr = some (hrp, data)) :
    ∃ full, bech32_verify_checksum hrp full = true ∧
      data = full.take (full.length - 6) := by
  unfold Api.decode_bech32 at heq
  by_cases h0 : addr.any (fun c => c.toNat < 33 ∨ 126 < c.toNat)
  · rw [if_pos h0] at heq; cases heq
  · rw [if_neg h0] at heq
    cases hpos : lastIndexOf (pyLower addr) '1' with
    | none => simp only [hpos] at heq; exact Option.noConfusion heq
    | some pos =>
      simp only [hpos] at heq
      by_cases h1 : pos < 1 ∨ (pyLower addr).length < pos + 7
      · rw [if_pos h1] at heq; cases heq
      · rw [if_neg h1] at heq
        cases hmap : ((pyLower addr).drop (pos + 1)).mapM bech32CharIndex with
        | none => simp only [hmap] at heq; exact Option.noConfusion heq
        | some full =>
          simp only [hmap] at heq
          by_cases h2 : bech32_verify_checksum ((pyLower addr).take pos) full = true
          · rw [if_neg (by simp [h2])] at heq
            obtain ⟨rfl, rfl⟩ : (pyLower addr).take pos = hrp ∧
                full.take (full.length - 6) = data := by
              cases heq; exact ⟨rfl, rfl⟩
            exact ⟨full, h2, rfl⟩
          · rw [if_pos (by simpa using h2)] at heq; cases heq

/-- The prover front end sends everything that does not start with `bc1` or
`tb1` — in particular every `bcrt1` address — to the Base58Check branch. -/
theorem prover_decode_dispatch (addr : List Char)
    (h : ¬ (pyStartsWith (pyLower addr) "bc1".toList ∨
            pyStartsWith (pyLower addr) "tb1".toList)) :
    Prover.decode_btc_address addr = Prover.decodeBase58Branch addr := by
  unfold Prover.decode_btc_address
  rw [if_neg h]

/-- C10 (amended).  The API's `decode_btc_address` dispatches every
`bc1`/`tb1`/`bcrt1` address to the Bech32 path, which verifies the polymod
checksum and accepts exactly witness-version-0 20-byte programs as
`(pubkey_hash, "p2wpkh")` — so the checksum-valid regtest address decodes
there.  The prover's `decode_btc_address`, however, dispatches only `bc1` and
`tb1` to Bech32; a `bcrt1` address falls to its Base58Check branch, and the
concrete valid regtest P2WPKH address returns `None`. -/
theorem C10_decode_btc_address (addr : List Char) (h : List Nat) (t : String) :
    ((pyStartsWith (pyLower addr) "bc1".toList ∨
      pyStartsWith (pyLower addr) "tb1".toList ∨
      pyStartsWith (pyLower addr) "bcrt1".toList) →
      Api.decode_btc_address addr = Api.decode_bech32_address addr) ∧
    (Api.decode_bech32_address addr = some (h, t) →
      t = "p2wpkh" ∧ h.length = 20 ∧
      ∃ hrp data, Api.decode_bech32 addr = some (hrp, data) ∧
        (hrp = "bc".toList ∨ hrp = "tb".toList ∨ hrp = "bcrt".toList) ∧
        data.headD 0 = 0 ∧
        ∃ full, bech32_verify_checksum hrp full = true ∧
          data = full.take (full.length - 6)) ∧
    (¬ (pyStartsWith (pyLower addr) "bc1".toList ∨
        pyStartsWith (pyLower addr) "tb1".toList) →
      Prover.decode_btc_address addr = Prover.decodeBase58Branch addr) ∧
    Prover.decode_btc_address bcrtAddr = none ∧
    Api.decode_btc_address bcrtAddr = some (bcrtProgram, "p2wpkh") := by
  refine ⟨api_decode_dispatch_bech32 addr, ?_, prover_decode_dispatch addr,
    by decide, by decide⟩
  intro heq
  obtain ⟨ht, hlen, hrp, data, hdec, hh, hv⟩ :=
    api_bech32_accepts_only_v0_20 addr h t heq
  obtain ⟨full, hcs, hstrip⟩ := api_decode_bech32_checksum addr hrp data hdec
  exact ⟨ht, hlen, hrp, data, hdec, hh, hv, full, hcs, hstrip⟩

/-- C10 witness: the amended theorem applied to the concrete regtest address. -/
theorem C10_decode_btc_address_witness :
    Api.decode_btc_address bcrtAddr = Api.decode_bech32_address bcrtAddr ∧
    Prover.decode_btc_address bcrtAddr = Prover.decodeBase58Branch bcrtAddr :=
  ⟨(C10_decode_btc_address bcrtAddr [] "").1 (by decide),
   (C10_decode_btc_address bcrtAddr [] "").2.2.1 (by decide)⟩

/-! ## Transaction output parsing

Embeds `parse_varint` and `parse_tx_outputs` from
`hashcredit_prover/bitcoin.py` (the API's `proof.py` twin differs only in
returning consumed byte counts instead of absolute offsets).  The sequential
statements of `parse_tx_outputs` are staged into `afterInputs` (the
skip-inputs loop fused with the output phase) and `parseOutputs`; `none` is a
raised `IndexError` from `data[offset]` in `parse_varint` — slices never
raise, they clamp, exactly as in Python. -/

structure TxOutput where
  value : Nat
  script_pubkey : List Nat
  deriving Repr, DecidableEq

/-- `parse_varint(data, offset)`; fails only when `data[offset]` is out of
range (multi-byte reads are clamping slices, as in the source). -/
def parse_varint (data : List Nat) (offset : Nat) : Option (Nat × Nat) :=
  match data[offset]? with
  | none => none
  | some first =>
    if first < 0xFD then some (first, offset + 1)
    else if first = 0xFD then
      some (leBytesToNat (pySlice data (offset + 1) (offset + 3)), offset + 3)
    else if first = 0xFE then
      some (leBytesToNat (pySlice data (offset + 1) (offset + 5)), offset + 5)
    else some (leBytesToNat (pySlice data (offset + 1) (offset + 9)), offset + 9)

/-- The `for _ in range(output_count)` loop of `parse_tx_outputs`. -/
def parseOutputs (data : List Nat) : Nat → Nat → Option (List TxOutput)
  | 0, _ => some []
  | n + 1, offset =>
    let value := leBytesToNat (pySlice data offset (offset + 8))
    match parse_varint data (offset + 8) with
    | none => none
    | some (script_len, o2) =>
      match parseOutputs data n (o2 + script_len) with
      | none => none
      | some rest => some (⟨value, pySlice data o2 (o2 + script_len)⟩ :: rest)

/-- The input-skipping loop (36 bytes prevout, varint script length, script,
4-byte sequence per input) followed by the output count and output loop. -/
def afterInputs (data : List Nat) : Nat → Nat → Option (List TxOutput)
  | 0, offset =>
    match parse_varint data offset with
    | none => none
    | some (output_count, o2) => parseOutputs data output_count o2
  | n + 1, offset =>
    match parse_varint data (offset + 36) with
    | none => none
    | some (script_len, o2) => afterInputs data n (o2 + script_len + 4)

/-- `parse_tx_outputs(raw_tx)`: skip the 4-byte version, detect the segwit
marker `00 01` (short-circuit exactly as `raw_tx[4] == 0 and raw_tx[5] == 1`),
then inputs, then outputs. -/
def parse_tx_outputs (raw : List Nat) : Option (List TxOutput) :=
  match raw[4]? with
  | none => none
  | some b4 =>
    let afterMarker : Option Nat :=
      if b4 = 0 then
        match raw[5]? with
        | none => none
        | some b5 => some (if b5 = 1 then 6 else 4)
      else some 4
    match afterMarker with
    | none => none
    | some off =>
      match parse_varint raw off with
      | none => none
      | some (input_count, o1) => afterInputs raw input_count o1

/-! Wire-format serialization of a structured transaction, used to state what
a "well-formed pre-segwit or segwit raw transaction" is. -/

structure TxIn where
  prevout : List Nat
  scriptSig : List Nat
  sequence : List Nat
  deriving Repr, DecidableEq

structure RawTx where
  version : List Nat
  segwit : Bool
  inputs : List TxIn
  outputs : List TxOutput
  trailer : List Nat
  deriving Repr, DecidableEq

/-- Bitcoin VarInt encoding (the inverse direction of `parse_varint`). -/
def varintEnc (n : Nat) : List Nat :=
  if n < 0xFD then [n]
  else if n < 2 ^ 16 then 0xFD :: toLEBytes 2 n
  else if n < 2 ^ 32 then 0xFE :: toLEBytes 4 n
  else 0xFF :: toLEBytes 8 n

def encInput (i : TxIn) : List Nat :=
  i.prevout ++ varintEnc i.scriptSig.length ++ i.scriptSig ++ i.sequence

def encOutput (o : TxOutput) : List Nat :=
  toLEBytes 8 o.value ++ varintEnc o.script_pubkey.length ++ o.script_pubkey

/-- The Bitcoin wire format: version, optional segwit marker/flag, varint
input count, inputs, varint output count, outputs, then witness data and
locktime (`trailer`), which the parser never reads. -/
def serializeTx (tx : RawTx) : List Nat :=
  tx.version ++ (if tx.segwit then [0, 1] else []) ++ varintEnc tx.inputs.length ++
    (tx.inputs.map encInput).flatten ++ varintEnc tx.outputs.length ++
    (tx.outputs.map encOutput).flatten ++ tx.trailer

/-- Well-formedness of the structured transaction: field widths, 64-bit
bounds for varint-encoded quantities and values, and at least one input for
the pre-segwit form (a 0-input pre-segwit transaction is indistinguishable
from a segwit marker on the wire). -/
def TxWF (tx : RawTx) : Prop :=
  tx.version.length = 4 ∧
  (∀ i ∈ tx.inputs, i.prevout.length = 36 ∧ i.sequence.length = 4 ∧
    i.scriptSig.length < 2 ^ 64) ∧
  (∀ o ∈ tx.outputs, o.value < 2 ^ 64 ∧ o.script_pubkey.length < 2 ^ 64) ∧
  tx.inputs.length < 2 ^ 64 ∧ tx.outputs.length < 2 ^ 64 ∧
  (¬ tx.segwit → tx.inputs ≠ [])

instance (tx : RawTx) : Decidable (TxWF tx) := by
  unfold TxWF; infer_instance

/-- The byte offset where the input region of the serialized form ends
(version, marker, input-count varint, all inputs). -/
def inputsEnd (tx : RawTx) : Nat :=
  4 + (if tx.segwit then 2 else 0) + (varintEnc tx.inputs.length).length +
    ((tx.inputs.map encInput).flatten).length

theorem getElem?_append_at (pre rest : List Nat) (i : Nat) :
    (pre ++ rest)[pre.length + i]? = rest[i]? := by
  rw [List.getElem?_append_right (by omega)]
  congr 1
  omega

theorem pySlice_append_at (pre rest : List Nat) (a b : Nat) :
    pySlice (pre ++ rest) (pre.length + a) (pre.length + b) = pySlice rest a b := by
  unfold pySlice
  have hd : (pre ++ rest).drop (pre.length + a) = rest.drop a := by
    rw [← List.drop_drop, List.drop_left]
  rw [hd]
  congr 1
  omega

theorem pySlice_take (l : List Nat) (k a b : Nat) (hab : a ≤ b) (hb : b ≤ k) :
    pySlice (l.take k) a b = pySlice l a b := by
  unfold pySlice
  have h1 : (l.take k).drop a = ((l.drop a).take (k - a)) := by
    rw [List.take_drop, Nat.add_sub_cancel' (le_trans hab hb)]
  rw [h1, List.take_take]
  congr 1
  omega

theorem getElem?_take_at (l : List Nat) (k i : Nat) (h : i < k) :
    (l.take k)[i]? = l[i]? :=
  List.getElem?_take_of_lt h

theorem getElem?_append_len (pre rest : List Nat) :
    (pre ++ rest)[pre.length]? = rest[0]? := by
  simpa using getElem?_append_at pre rest 0

theorem varintEnc_case1 {n : Nat} (h : n < 0xFD) : varintEnc n = [n] := by
  unfold varintEnc; rw [if_pos h]

theorem varintEnc_case2 {n : Nat} (h1 : ¬ n < 0xFD) (h2 : n < 2 ^ 16) :
    varintEnc n = 0xFD :: toLEBytes 2 n := by
  unfold varintEnc; rw [if_neg h1, if_pos h2]

theorem varintEnc_case3 {n : Nat} (h1 : ¬ n < 2 ^ 16) (h2 : n < 2 ^ 32) :
    varintEnc n = 0xFE :: toLEBytes 4 n := by
  unfold varintEnc; rw [if_neg (by omega), if_neg h1, if_pos h2]

theorem varintEnc_case4 {n : Nat} (h1 : ¬ n < 2 ^ 32) :
    varintEnc n = 0xFF :: toLEBytes 8 n := by
  unfold varintEnc; rw [if_neg (by omega), if_neg (by omega), if_neg h1]

/-- `parse_varint` with a known first byte, as its four-way branch. -/
theorem parse_varint_first (data : List Nat) (o first : Nat)
    (hf : data[o]? = some first) :
    parse_varint data o =
      if first < 0xFD then some (first, o + 1)
      else if first = 0xFD then
        some (leBytesToNat (pySlice data (o + 1) (o + 3)), o + 3)
      else if first = 0xFE then
        some (leBytesToNat (pySlice data (o + 1) (o + 5)), o + 5)
      else some (leBytesToNat (pySlice data (o + 1) (o + 9)), o + 9) := by
  unfold parse_varint
  rw [hf]

theorem varintEnc_head (n : Nat) :
    (pre ++ (varintEnc n ++ post))[pre.length]? = some ((varintEnc n).headD 0) := by
  rw [getElem?_append_len]
  by_cases h1 : n < 0xFD
  · rw [varintEnc_case1 h1]; simp
  · by_cases h2 : n < 2 ^ 16
    · rw [varintEnc_case2 h1 h2]; simp
    · by_cases h3 : n < 2 ^ 32
      · rw [varintEnc_case3 h2 h3]; simp
      · rw [varintEnc_case4 h3]; simp

/-- The slice holding a varint's little-endian payload, recovered. -/
theorem varint_payload_slice (pre post : List Nat) (first : Nat) (payload : List Nat)
    (w : Nat) (hw : payload.length = w) :
    pySlice (pre ++ ((first :: payload) ++ post)) (pre.length + 1)
      (pre.length + (1 + w)) = payload := by
  have h := pySlice_append_at pre ((first :: payload) ++ post) 1 (1 + w)
  rw [h]
  show (((first :: payload) ++ post).drop 1).take (1 + w - 1) = payload
  rw [List.cons_append, List.drop_one, List.tail_cons]
  have : 1 + w - 1 = w := by omega
  rw [this, List.take_left' hw]

/-- An in-bounds varint at a known position parses to its encoded value. -/
theorem parse_varint_at (pre post : List Nat) (n : Nat) (hn : n < 2 ^ 64) :
    parse_varint (pre ++ (varintEnc n ++ post)) pre.length =
      some (n, pre.length + (varintEnc n).length) := by
  rw [parse_varint_first _ _ _ (varintEnc_head n)]
  by_cases h1 : n < 0xFD
  · rw [varintEnc_case1 h1, List.headD_cons, if_pos h1, List.length_singleton]
  · by_cases h2 : n < 2 ^ 16
    · rw [varintEnc_case2 h1 h2, List.headD_cons, if_neg (by norm_num), if_pos rfl,
        show pre.length + 3 = pre.length + (1 + 2) from by omega,
        varint_payload_slice pre post 0xFD (toLEBytes 2 n) 2 (toLEBytes_length 2 n),
        leBytesToNat_toLEBytes 2 n (by omega), List.length_cons, toLEBytes_length]
    · by_cases h3 : n < 2 ^ 32
      · rw [varintEnc_case3 h2 h3, List.headD_cons, if_neg (by norm_num),
          if_neg (by norm_num), if_pos rfl,
          show pre.length + 5 = pre.length + (1 + 4) from by omega,
          varint_payload_slice pre post 0xFE (toLEBytes 4 n) 4 (toLEBytes_length 4 n),
          leBytesToNat_toLEBytes 4 n (by omega), List.length_cons, toLEBytes_length]
      · rw [varintEnc_case4 h3, List.headD_cons, if_neg (by norm_num),
          if_neg (by norm_num), if_neg (by norm_num),
          show pre.length + 9 = pre.length + (1 + 8) from by omega,
          varint_payload_slice pre post 0xFF (toLEBytes 8 n) 8 (toLEBytes_length 8 n),
          leBytesToNat_toLEBytes 8 n (by omega), List.length_cons, toLEBytes_length]

/-- A successful varint parse survives truncation at or after its end. -/
theorem parse_varint_take (l : List Nat) (o k v o2 : Nat)
    (h : parse_varint l o = some (v, o2)) (hk : o2 ≤ k) :
    parse_varint (l.take k) o = some (v, o2) := by
  cases hfe : l[o]? with
  | none =>
    rw [parse_varint, hfe] at h
    cases h
  | some first =>
    rw [parse_varint_first l o first hfe] at h
    have ho2 : o + 1 ≤ o2 := by
      by_cases c1 : first < 0xFD
      · rw [if_pos c1] at h; cases h; omega
      · rw [if_neg c1] at h
        by_cases c2 : first = 0xFD
        · rw [if_pos c2] at h; cases h; omega
        · rw [if_neg c2] at h
          by_cases c3 : first = 0xFE
          · rw [if_pos c3] at h; cases h; omega
          · rw [if_neg c3] at h; cases h; omega
    rw [parse_varint_first (l.take k) o first
      (by rw [getElem?_take_at l k o (by omega)]; exact hfe)]
    by_cases c1 : first < 0xFD
    · rw [if_pos c1] at h ⊢; exact h
    · rw [if_neg c1] at h ⊢
      by_cases c2 : first = 0xFD
      · rw [if_pos c2] at h ⊢
        have ho : o2 = o + 3 := by cases h; rfl
        rw [pySlice_take l k (o + 1) (o + 3) (by omega) (by omega)]
        exact h
      · rw [if_neg c2] at h ⊢
        by_cases c3 : first = 0xFE
        · rw [if_pos c3] at h ⊢
          have ho : o2 = o + 5 := by cases h; rfl
          rw [pySlice_take l k (o + 1) (o + 5) (by omega) (by omega)]
          exact h
        · rw [if_neg c3] at h ⊢
          have ho : o2 = o + 9 := by cases h; rfl
          rw [pySlice_take l k (o + 1) (o + 9) (by omega) (by omega)]
          exact h

/-- Out-of-range offsets fail `parse_varint` (the `IndexError`). -/
theorem parse_varint_oob (data : List Nat) (o : Nat) (h : data.length ≤ o) :
    parse_varint data o = none := by
  unfold parse_varint
  rw [List.getElem?_eq_none h]

/-- A multi-byte varint cut by truncation still returns (a garbage value at)
the full varint-width offset, provided its first byte survived. -/
theorem parse_varint_multibyte_take (pre post : List Nat) (n k : Nat)
    (hn : ¬ n < 0xFD) (hk : pre.length < k) :
    ∃ v, parse_varint ((pre ++ (varintEnc n ++ post)).take k) pre.length =
      some (v, pre.length + (varintEnc n).length) := by
  have hf : ((pre ++ (varintEnc n ++ post)).take k)[pre.length]? =
      some ((varintEnc n).headD 0) := by
    rw [getElem?_take_at _ k pre.length hk]
    exact varintEnc_head n
  rw [parse_varint_first _ _ _ hf]
  by_cases h2 : n < 2 ^ 16
  · rw [varintEnc_case2 hn h2, List.headD_cons, if_neg (by norm_num), if_pos rfl,
      List.length_cons, toLEBytes_length]
    exact ⟨_, by rw [show (2 : Nat) + 1 = 3 from rfl]⟩
  · by_cases h3 : n < 2 ^ 32
    · rw [varintEnc_case3 h2 h3, List.headD_cons, if_neg (by norm_num),
        if_neg (by norm_num), if_pos rfl, List.length_cons, toLEBytes_length]
      exact ⟨_, by rw [show (4 : Nat) + 1 = 5 from rfl]⟩
    · rw [varintEnc_case4 h3, List.headD_cons, if_neg (by norm_num),
        if_neg (by norm_num), if_neg (by norm_num), List.length_cons, toLEBytes_length]
      exact ⟨_, by rw [show (8 : Nat) + 1 = 9 from rfl]⟩

theorem afterInputs_oob (data : List Nat) (n o : Nat) (h : data.length ≤ o) :
    afterInputs data n o = none := by
  cases n with
  | zero =>
    simp only [afterInputs, parse_varint_oob data o h]
  | succ m =>
    simp only [afterInputs, parse_varint_oob data (o + 36) (by omega)]

theorem pySlice_from_len (pre rest : List Nat) (b : Nat) :
    pySlice (pre ++ rest) pre.length (pre.length + b) = rest.take b := by
  unfold pySlice
  rw [List.drop_left]
  congr 1
  omega

/-- The output loop parses a serialized output list laid out after any
prefix, returning exactly that list. -/
theorem parseOutputs_at : ∀ (ol : List TxOutput) (pre post : List Nat),
    (∀ o ∈ ol, o.value < 2 ^ 64 ∧ o.script_pubkey.length < 2 ^ 64) →
    parseOutputs (pre ++ ((ol.map encOutput).flatten ++ post)) ol.length pre.length =
      some ol := by
  intro ol
  induction ol with
  | nil => intro pre post _; rfl
  | cons o tl ih =>
    intro pre post hwf
    obtain ⟨hval, hslen⟩ := hwf o (List.mem_cons_self _ _)
    have hdata : pre ++ (((o :: tl).map encOutput).flatten ++ post) =
        pre ++ (toLEBytes 8 o.value ++ (varintEnc o.script_pubkey.length ++
          (o.script_pubkey ++ ((tl.map encOutput).flatten ++ post)))) := by
      simp [encOutput, List.append_assoc]
    have hvalue : pySlice (pre ++ (((o :: tl).map encOutput).flatten ++ post))
        pre.length (pre.length + 8) = toLEBytes 8 o.value := by
      rw [hdata, pySlice_from_len, List.take_left' (toLEBytes_length 8 o.value)]
    have hv2 : leBytesToNat (toLEBytes 8 o.value) = o.value :=
      leBytesToNat_toLEBytes 8 o.value hval
    have hpv : parse_varint (pre ++ (((o :: tl).map encOutput).flatten ++ post))
        (pre.length + 8) = some (o.script_pubkey.length,
          pre.length + 8 + (varintEnc o.script_pubkey.length).length) := by
      rw [hdata]
      have h := parse_varint_at (pre ++ toLEBytes 8 o.value)
        (o.script_pubkey ++ ((tl.map encOutput).flatten ++ post))
        o.script_pubkey.length hslen
      rw [List.length_append, toLEBytes_length] at h
      rw [← h]
      congr 1
      simp [List.append_assoc]
    have hscript : pySlice (pre ++ (((o :: tl).map encOutput).flatten ++ post))
        (pre.length + 8 + (varintEnc o.script_pubkey.length).length)
        (pre.length + 8 + (varintEnc o.script_pubkey.length).length +
          o.script_pubkey.length) = o.script_pubkey := by
      rw [hdata]
      rw [show pre ++ (toLEBytes 8 o.value ++ (varintEnc o.script_pubkey.length ++
          (o.script_pubkey ++ ((tl.map encOutput).flatten ++ post)))) =
          (pre ++ toLEBytes 8 o.value ++ varintEnc o.script_pubkey.length) ++
          (o.script_pubkey ++ ((tl.map encOutput).flatten ++ post)) from by
            simp [List.append_assoc]]
      rw [show pre.length + 8 + (varintEnc o.script_pubkey.length).length =
          (pre ++ toLEBytes 8 o.value ++ varintEnc o.script_pubkey.length).length
          from by rw [List.length_append, List.length_append, toLEBytes_length]]
      rw [pySlice_from_len]
      exact List.take_left' rfl
    have hrec : parseOutputs (pre ++ (((o :: tl).map encOutput).flatten ++ post))
        tl.length (pre.length + 8 + (varintEnc o.script_pubkey.length).length +
          o.script_pubkey.length) = some tl := by
      have h := ih (pre ++ encOutput o) post
        (fun x hx => hwf x (List.mem_cons_of_mem _ hx))
      rw [show (pre ++ encOutput o).length = pre.length + 8 + (varintEnc
          o.script_pubkey.length).length + o.script_pubkey.length from by
            simp [encOutput, toLEBytes_length]; omega] at h
      rw [← h]
      congr 1
      simp [encOutput, List.append_assoc]
    simp only [List.length_cons, parseOutputs, hvalue, hv2, hpv, hscript, hrec]

/-- The fused skip-inputs and parse-outputs phase on a well-formed layout. -/
theorem afterInputs_at : ∀ (il : List TxIn) (ol : List TxOutput) (pre trailer : List Nat),
    (∀ i ∈ il, i.prevout.length = 36 ∧ i.sequence.length = 4 ∧
      i.scriptSig.length < 2 ^ 64) →
    (∀ o ∈ ol, o.value < 2 ^ 64 ∧ o.script_pubkey.length < 2 ^ 64) →
    ol.length < 2 ^ 64 →
    afterInputs (pre ++ ((il.map encInput).flatten ++ (varintEnc ol.length ++
      ((ol.map encOutput).flatten ++ trailer)))) il.length pre.length = some ol := by
  intro il
  induction il with
  | nil =>
    intro ol pre trailer _ hol holn
    have hd : pre ++ (([] : List TxIn).map encInput).flatten ++ (varintEnc ol.length ++
        ((ol.map encOutput).flatten ++ trailer)) =
        pre ++ (varintEnc ol.length ++ ((ol.map encOutput).flatten ++ trailer)) := by
      simp
    have hpv : parse_varint (pre ++ ((([] : List TxIn).map encInput).flatten ++
        (varintEnc ol.length ++ ((ol.map encOutput).flatten ++ trailer)))) pre.length =
        some (ol.length, pre.length + (varintEnc ol.length).length) := by
      have h := parse_varint_at pre ((ol.map encOutput).flatten ++ trailer)
        ol.length holn
      rw [← h]
      congr 1
    have hout : parseOutputs (pre ++ ((([] : List TxIn).map encInput).flatten ++
        (varintEnc ol.length ++ ((ol.map encOutput).flatten ++ trailer))))
        ol.length (pre.length + (varintEnc ol.length).length) = some ol := by
      have h := parseOutputs_at ol (pre ++ varintEnc ol.length) trailer hol
      rw [List.length_append] at h
      rw [← h]
      congr 1
      simp [List.append_assoc]
    simp only [List.length_nil, afterInputs, hpv, hout]
  | cons i tl ih =>
    intro ol pre trailer hin hol holn
    obtain ⟨hprev, hseq, hslen⟩ := hin i (List.mem_cons_self _ _)
    have hpv : parse_varint (pre ++ (((i :: tl).map encInput).flatten ++
        (varintEnc ol.length ++ ((ol.map encOutput).flatten ++ trailer))))
        (pre.length + 36) = some (i.scriptSig.length,
          pre.length + 36 + (varintEnc i.scriptSig.length).length) := by
      have h := parse_varint_at (pre ++ i.prevout) (i.scriptSig ++ (i.sequence ++
        ((tl.map encInput).flatten ++ (varintEnc ol.length ++
          ((ol.map encOutput).flatten ++ trailer))))) i.scriptSig.length hslen
      rw [List.length_append, hprev] at h
      rw [← h]
      congr 1
      simp [encInput, List.append_assoc]
    have hrec : afterInputs (pre ++ (((i :: tl).map encInput).flatten ++
        (varintEnc ol.length ++ ((ol.map encOutput).flatten ++ trailer))))
        tl.length (pre.length + 36 + (varintEnc i.scriptSig.length).length +
          i.scriptSig.length + 4) = some ol := by
      have h := ih ol (pre ++ encInput i) trailer
        (fun x hx => hin x (List.mem_cons_of_mem _ hx)) hol holn
      rw [show (pre ++ encInput i).length = pre.length + 36 +
          (varintEnc i.scriptSig.length).length + i.scriptSig.length + 4 from by
            simp [encInput, hprev, hseq]; omega] at h
      rw [← h]
      congr 1
      simp [encInput, List.append_assoc]
    simp only [List.length_cons, afterInputs, hpv, hrec]

/-- Truncating anywhere strictly inside the input region makes the fused
input/output phase fail: every sub-read either hits the end (an
`IndexError`) or jumps past the truncation point, where the next bounds
check fails. -/
theorem afterInputs_take : ∀ (il : List TxIn) (pre rest : List Nat) (k : Nat),
    (∀ i ∈ il, i.prevout.length = 36 ∧ i.sequence.length = 4 ∧
      i.scriptSig.length < 2 ^ 64) →
    pre.length ≤ k →
    k < pre.length + ((il.map encInput).flatten).length →
    afterInputs ((pre ++ ((il.map encInput).flatten ++ rest)).take k)
      il.length pre.length = none := by
  intro il
  induction il with
  | nil => intro pre rest k _ hk1 hk2; simp at hk2; omega
  | cons i tl ih =>
    intro pre rest k hin hk1 hk2
    obtain ⟨hprev, hseq, hslen⟩ := hin i (List.mem_cons_self _ _)
    have hEi : (encInput i).length =
        36 + (varintEnc i.scriptSig.length).length + i.scriptSig.length + 4 := by
      simp [encInput, hprev, hseq]
      omega
    have hflat : (((i :: tl).map encInput).flatten).length =
        (encInput i).length + ((tl.map encInput).flatten).length := by
      simp
    have hTlen : ((pre ++ (((i :: tl).map encInput).flatten ++ rest)).take k).length
        = k := by
      rw [List.length_take]
      have : k ≤ (pre ++ (((i :: tl).map encInput).flatten ++ rest)).length := by
        rw [List.length_append, List.length_append]
        omega
      omega
    have hvlen1 : 1 ≤ (varintEnc i.scriptSig.length).length := by
      by_cases hc : i.scriptSig.length < 0xFD
      · rw [varintEnc_case1 hc]; simp
      · by_cases hc2 : i.scriptSig.length < 2 ^ 16
        · rw [varintEnc_case2 hc hc2]; simp
        · by_cases hc3 : i.scriptSig.length < 2 ^ 32
          · rw [varintEnc_case3 hc2 hc3]; simp
          · rw [varintEnc_case4 hc3]; simp
    simp only [List.length_cons, afterInputs]
    by_cases hA : k ≤ pre.length + 36
    · rw [parse_varint_oob _ (pre.length + 36) (by omega)]
    · have hD : pre ++ (((i :: tl).map encInput).flatten ++ rest) =
          (pre ++ i.prevout) ++ ((varintEnc i.scriptSig.length) ++ (i.scriptSig ++
            (i.sequence ++ ((tl.map encInput).flatten ++ rest)))) := by
        simp [encInput, List.append_assoc]
      by_cases hB : k < pre.length + 36 + (varintEnc i.scriptSig.length).length
      · have hge : ¬ i.scriptSig.length < 0xFD := by
          intro hlt
          rw [varintEnc_case1 hlt] at hB
          simp at hB
          omega
        obtain ⟨vg, hpv⟩ := parse_varint_multibyte_take (pre ++ i.prevout)
          (i.scriptSig ++ (i.sequence ++ ((tl.map encInput).flatten ++ rest)))
          i.scriptSig.length k hge (by rw [List.length_append, hprev]; omega)
        rw [List.length_append, hprev] at hpv
        rw [← hD] at hpv
        rw [hpv]
        exact afterInputs_oob _ _ _ (by rw [hTlen]; omega)
      · have hfull := parse_varint_at (pre ++ i.prevout)
          (i.scriptSig ++ (i.sequence ++ ((tl.map encInput).flatten ++ rest)))
          i.scriptSig.length hslen
        rw [List.length_append, hprev] at hfull
        rw [← hD] at hfull
        have hpv := parse_varint_take _ (pre.length + 36) k i.scriptSig.length
          (pre.length + 36 + (varintEnc i.scriptSig.length).length) hfull (by omega)
        rw [hpv]
        by_cases hC : k < pre.length + (encInput i).length
        · exact afterInputs_oob _ _ _ (by rw [hTlen]; omega)
        · have hrec := ih (pre ++ encInput i) rest k
            (fun x hx => hin x (List.mem_cons_of_mem _ hx))
            (by rw [List.length_append]; omega)
            (by rw [List.length_append]; rw [hflat] at hk2; omega)
          rw [show (pre ++ encInput i) ++ ((tl.map encInput).flatten ++ rest) =
              pre ++ (((i :: tl).map encInput).flatten ++ rest) from by
                simp [List.append_assoc]] at hrec
          rw [show (pre ++ encInput i).length = pre.length + 36 +
              (varintEnc i.scriptSig.length).length + i.scriptSig.length + 4 from by
                rw [List.length_append, hEi]; omega] at hrec
          exact hrec

theorem varintEnc_headD_ne_zero {n : Nat} (h : 1 ≤ n) :
    (varintEnc n).headD 0 ≠ 0 := by
  by_cases h1 : n < 0xFD
  · rw [varintEnc_case1 h1]; simpa using by omega
  · by_cases h2 : n < 2 ^ 16
    · rw [varintEnc_case2 h1 h2]; simp
    · by_cases h3 : n < 2 ^ 32
      · rw [varintEnc_case3 h2 h3]; simp
      · rw [varintEnc_case4 h3]; simp

/-- A well-formed serialized transaction parses to exactly its output list
(pre-segwit and segwit wire forms). -/
theorem parse_tx_outputs_wellformed (tx : RawTx) (hwf : TxWF tx) :
    parse_tx_outputs (serializeTx tx) = some tx.outputs := by
  obtain ⟨hv4, hins, houts, hinlen, houtlen, hpre⟩ := hwf
  cases hsw : tx.segwit with
  | false =>
    have hser : serializeTx tx = tx.version ++ (varintEnc tx.inputs.length ++
        ((tx.inputs.map encInput).flatten ++ (varintEnc tx.outputs.length ++
          ((tx.outputs.map encOutput).flatten ++ tx.trailer)))) := by
      simp [serializeTx, hsw, List.append_assoc]
    have hne : tx.inputs ≠ [] := hpre (by simp [hsw])
    have hpos : 1 ≤ tx.inputs.length := List.length_pos.mpr hne
    have hb4 : (serializeTx tx)[4]? = some ((varintEnc tx.inputs.length).headD 0) := by
      rw [hser, show (4 : Nat) = tx.version.length from hv4.symm, getElem?_append_len]
      simpa using @varintEnc_head []
        ((tx.inputs.map encInput).flatten ++ (varintEnc tx.outputs.length ++
          ((tx.outputs.map encOutput).flatten ++ tx.trailer))) tx.inputs.length
    have hcount : parse_varint (serializeTx tx) 4 =
        some (tx.inputs.length, 4 + (varintEnc tx.inputs.length).length) := by
      have h := parse_varint_at tx.version ((tx.inputs.map encInput).flatten ++
        (varintEnc tx.outputs.length ++ ((tx.outputs.map encOutput).flatten ++
          tx.trailer))) tx.inputs.length hinlen
      rw [hv4] at h
      rw [hser]
      exact h
    have hai : afterInputs (serializeTx tx) tx.inputs.length
        (4 + (varintEnc tx.inputs.length).length) = some tx.outputs := by
      have h := afterInputs_at tx.inputs tx.outputs
        (tx.version ++ varintEnc tx.inputs.length) tx.trailer hins houts houtlen
      rw [List.length_append, hv4] at h
      rw [hser, show tx.version ++ (varintEnc tx.inputs.length ++
          ((tx.inputs.map encInput).flatten ++ (varintEnc tx.outputs.length ++
            ((tx.outputs.map encOutput).flatten ++ tx.trailer)))) =
          (tx.version ++ varintEnc tx.inputs.length) ++
          ((tx.inputs.map encInput).flatten ++ (varintEnc tx.outputs.length ++
            ((tx.outputs.map encOutput).flatten ++ tx.trailer))) from by
              simp [List.append_assoc]]
      exact h
    unfold parse_tx_outputs
    simp only [hb4, if_neg (varintEnc_headD_ne_zero hpos), hcount, hai]
  | true =>
    have hser : serializeTx tx = tx.version ++ ([0, 1] ++ (varintEnc tx.inputs.length ++
        ((tx.inputs.map encInput).flatten ++ (varintEnc tx.outputs.length ++
          ((tx.outputs.map encOutput).flatten ++ tx.trailer))))) := by
      simp [serializeTx, hsw, List.append_assoc]
    have hb4 : (serializeTx tx)[4]? = some 0 := by
      rw [hser, show (4 : Nat) = tx.version.length from hv4.symm, getElem?_append_len]
      rfl
    have hb5 : (serializeTx tx)[5]? = some 1 := by
      rw [hser, show (5 : Nat) = tx.version.length + 1 from by rw [hv4],
        getElem?_append_at]
      simp
    have h6 : (tx.version ++ [0, 1]).length = 6 := by simp [hv4]
    have hcount : parse_varint (serializeTx tx) 6 =
        some (tx.inputs.length, 6 + (varintEnc tx.inputs.length).length) := by
      have h := parse_varint_at (tx.version ++ [0, 1])
        ((tx.inputs.map encInput).flatten ++ (varintEnc tx.outputs.length ++
          ((tx.outputs.map encOutput).flatten ++ tx.trailer))) tx.inputs.length hinlen
      rw [h6] at h
      rw [hser, show tx.version ++ ([0, 1] ++ (varintEnc tx.inputs.length ++
          ((tx.inputs.map encInput).flatten ++ (varintEnc tx.outputs.length ++
            ((tx.outputs.map encOutput).flatten ++ tx.trailer))))) =
          (tx.version ++ [0, 1]) ++ (varintEnc tx.inputs.length ++
          ((tx.inputs.map encInput).flatten ++ (varintEnc tx.outputs.length ++
            ((tx.outputs.map encOutput).flatten ++ tx.trailer)))) from by
              simp [List.append_assoc]]
      exact h
    have hai : afterInputs (serializeTx tx) tx.inputs.length
        (6 + (varintEnc tx.inputs.length).length) = some tx.outputs := by
      have h := afterInputs_at tx.inputs tx.outputs
        (tx.version ++ [0, 1] ++ varintEnc tx.inputs.length) tx.trailer hins houts houtlen
      rw [List.length_append, h6] at h
      rw [hser, show tx.version ++ ([0, 1] ++ (varintEnc tx.inputs.length ++
          ((tx.inputs.map encInput).flatten ++ (varintEnc tx.outputs.length ++
            ((tx.outputs.map encOutput).flatten ++ tx.trailer))))) =
          (tx.version ++ [0, 1] ++ varintEnc tx.inputs.length) ++
          ((tx.inputs.map encInput).flatten ++ (varintEnc tx.outputs.length ++
            ((tx.outputs.map encOutput).flatten ++ tx.trailer))) from by
              simp [List.append_assoc]]
      exact h
    unfold parse_tx_outputs
    simp only [hb4, hb5, if_true, hcount, hai]

/-- Truncating a well-formed serialized transaction strictly before the end
of its input region makes `parse_tx_outputs` fail (a raised `IndexError`). -/
theorem parse_tx_outputs_truncated (tx : RawTx) (hwf : TxWF tx) (k : Nat)
    (hk : k < inputsEnd tx) :
    parse_tx_outputs ((serializeTx tx).take k) = none := by
  obtain ⟨hv4, hins, houts, hinlen, houtlen, hpre⟩ := hwf
  have hle : inputsEnd tx ≤ (serializeTx tx).length := by
    cases hsw : tx.segwit <;>
      simp [inputsEnd, serializeTx, hsw, hv4, List.length_append] <;> omega
  have hklen : ((serializeTx tx).take k).length = k := by
    rw [List.length_take]
    omega
  by_cases hA4 : k ≤ 4
  · unfold parse_tx_outputs
    rw [List.getElem?_eq_none (by rw [hklen]; omega)]
  · cases hsw : tx.segwit with
    | false =>
      have hser : serializeTx tx = tx.version ++ (varintEnc tx.inputs.length ++
          ((tx.inputs.map encInput).flatten ++ (varintEnc tx.outputs.length ++
            ((tx.outputs.map encOutput).flatten ++ tx.trailer)))) := by
        simp [serializeTx, hsw, List.append_assoc]
      have hie : inputsEnd tx = 4 + (varintEnc tx.inputs.length).length +
          ((tx.inputs.map encInput).flatten).length := by
        simp [inputsEnd, hsw]
      have hne : tx.inputs ≠ [] := hpre (by simp [hsw])
      have hpos : 1 ≤ tx.inputs.length := List.length_pos.mpr hne
      have hb4full : (serializeTx tx)[4]? =
          some ((varintEnc tx.inputs.length).headD 0) := by
        rw [hser, show (4 : Nat) = tx.version.length from hv4.symm, getElem?_append_len]
        simpa using @varintEnc_head []
          ((tx.inputs.map encInput).flatten ++ (varintEnc tx.outputs.length ++
            ((tx.outputs.map encOutput).flatten ++ tx.trailer))) tx.inputs.length
      have hb4 : ((serializeTx tx).take k)[4]? =
          some ((varintEnc tx.inputs.length).headD 0) := by
        rw [getElem?_take_at _ k 4 (by omega)]
        exact hb4full
      have hb4ne := varintEnc_headD_ne_zero hpos
      unfold parse_tx_outputs
      simp only [hb4, if_neg hb4ne]
      by_cases hB : k < 4 + (varintEnc tx.inputs.length).length
      · have hge : ¬ tx.inputs.length < 0xFD := by
          intro hlt
          rw [varintEnc_case1 hlt] at hB
          simp at hB
          omega
        obtain ⟨vg, hpv⟩ := parse_varint_multibyte_take tx.version
          ((tx.inputs.map encInput).flatten ++ (varintEnc tx.outputs.length ++
            ((tx.outputs.map encOutput).flatten ++ tx.trailer)))
          tx.inputs.length k hge (by omega)
        rw [hv4] at hpv
        rw [← hser] at hpv
        simp only [hpv]
        exact afterInputs_oob _ _ _ (by rw [hklen]; omega)
      · have hcfull : parse_varint (serializeTx tx) 4 =
            some (tx.inputs.length, 4 + (varintEnc tx.inputs.length).length) := by
          have h := parse_varint_at tx.version ((tx.inputs.map encInput).flatten ++
            (varintEnc tx.outputs.length ++ ((tx.outputs.map encOutput).flatten ++
              tx.trailer))) tx.inputs.length hinlen
          rw [hv4] at h
          rw [hser]
          exact h
        have hcount := parse_varint_take _ 4 k tx.inputs.length
          (4 + (varintEnc tx.inputs.length).length) hcfull (by omega)
        simp only [hcount]
        have h := afterInputs_take tx.inputs (tx.version ++ varintEnc tx.inputs.length)
          (varintEnc tx.outputs.length ++ ((tx.outputs.map encOutput).flatten ++
            tx.trailer)) k hins
          (by rw [List.length_append, hv4]; omega)
          (by rw [List.length_append, hv4]; omega)
        rw [show (tx.version ++ varintEnc tx.inputs.length) ++
            ((tx.inputs.map encInput).flatten ++ (varintEnc tx.outputs.length ++
              ((tx.outputs.map encOutput).flatten ++ tx.trailer))) =
            tx.version ++ (varintEnc tx.inputs.length ++
              ((tx.inputs.map encInput).flatten ++ (varintEnc tx.outputs.length ++
                ((tx.outputs.map encOutput).flatten ++ tx.trailer)))) from by
              simp [List.append_assoc], ← hser, List.length_append, hv4] at h
        exact h
    | true =>
      have hser : serializeTx tx = tx.version ++ ([0, 1] ++
          (varintEnc tx.inputs.length ++ ((tx.inputs.map encInput).flatten ++
            (varintEnc tx.outputs.length ++ ((tx.outputs.map encOutput).flatten ++
              tx.trailer))))) := by
        simp [serializeTx, hsw, List.append_assoc]
      have hie : inputsEnd tx = 6 + (varintEnc tx.inputs.length).length +
          ((tx.inputs.map encInput).flatten).length := by
        simp [inputsEnd, hsw]
      have hb4 : ((serializeTx tx).take k)[4]? = some 0 := by
        rw [getElem?_take_at _ k 4 (by omega), hser,
          show (4 : Nat) = tx.version.length from hv4.symm, getElem?_append_len]
        rfl
      by_cases hA5 : k ≤ 5
      · unfold parse_tx_outputs
        simp only [hb4, if_true]
        rw [List.getElem?_eq_none (by rw [hklen]; omega)]
      · have hb5 : ((serializeTx tx).take k)[5]? = some 1 := by
          rw [getElem?_take_at _ k 5 (by omega), hser,
            show (5 : Nat) = tx.version.length + 1 from by rw [hv4], getElem?_append_at]
          simp
        unfold parse_tx_outputs
        simp only [hb4, hb5, if_true]
        have h6 : (tx.version ++ [0, 1]).length = 6 := by simp [hv4]
        by_cases hA6 : k ≤ 6
        · rw [parse_varint_oob _ 6 (by rw [hklen]; omega)]
        by_cases hB : k < 6 + (varintEnc tx.inputs.length).length
        · have hge : ¬ tx.inputs.length < 0xFD := by
            intro hlt
            rw [varintEnc_case1 hlt] at hB
            simp at hB
            omega
          obtain ⟨vg, hpv⟩ := parse_varint_multibyte_take (tx.version ++ [0, 1])
            ((tx.inputs.map encInput).flatten ++ (varintEnc tx.outputs.length ++
              ((tx.outputs.map encOutput).flatten ++ tx.trailer)))
            tx.inputs.length k hge (by rw [h6]; omega)
          rw [h6] at hpv
          rw [show (tx.version ++ [0, 1]) ++ (varintEnc tx.inputs.length ++
              ((tx.inputs.map encInput).flatten ++ (varintEnc tx.outputs.length ++
                ((tx.outputs.map encOutput).flatten ++ tx.trailer)))) =
              tx.version ++ ([0, 1] ++ (varintEnc tx.inputs.length ++
                ((tx.inputs.map encInput).flatten ++ (varintEnc tx.outputs.length ++
                  ((tx.outputs.map encOutput).flatten ++ tx.trailer))))) from by
                simp [List.append_assoc], ← hser] at hpv
          simp only [hpv]
          exact afterInputs_oob _ _ _ (by rw [hklen]; omega)
        · have hcfull : parse_varint (serializeTx tx) 6 =
              some (tx.inputs.length, 6 + (varintEnc tx.inputs.length).length) := by
            have h := parse_varint_at (tx.version ++ [0, 1])
              ((tx.inputs.map encInput).flatten ++ (varintEnc tx.outputs.length ++
                ((tx.outputs.map encOutput).flatten ++ tx.trailer)))
              tx.inputs.length hinlen
            rw [h6] at h
            rw [hser, show tx.version ++ ([0, 1] ++ (varintEnc tx.inputs.length ++
                ((tx.inputs.map encInput).flatten ++ (varintEnc tx.outputs.length ++
                  ((tx.outputs.map encOutput).flatten ++ tx.trailer))))) =
                (tx.version ++ [0, 1]) ++ (varintEnc tx.inputs.length ++
                  ((tx.inputs.map encInput).flatten ++ (varintEnc tx.outputs.length ++
                    ((tx.outputs.map encOutput).flatten ++ tx.trailer)))) from by
                  simp [List.append_assoc]]
            exact h
          have hcount := parse_varint_take _ 6 k tx.inputs.length
            (6 + (varintEnc tx.inputs.length).length) hcfull (by omega)
          simp only [hcount]
          have h := afterInputs_take tx.inputs
            (tx.version ++ [0, 1] ++ varintEnc tx.inputs.length)
            (varintEnc tx.outputs.length ++ ((tx.outputs.map encOutput).flatten ++
              tx.trailer)) k hins
            (by rw [List.length_append, h6]; omega)
            (by rw [List.length_append, h6]; omega)
          rw [show (tx.version ++ [0, 1] ++ varintEnc tx.inputs.length) ++
              ((tx.inputs.map encInput).flatten ++ (varintEnc tx.outputs.length ++
                ((tx.outputs.map encOutput).flatten ++ tx.trailer))) =
              tx.version ++ ([0, 1] ++ (varintEnc tx.inputs.length ++
                ((tx.inputs.map encInput).flatten ++ (varintEnc tx.outputs.length ++
                  ((tx.outputs.map encOutput).flatten ++ tx.trailer))))) from by
                simp [List.append_assoc], ← hser, List.length_append, h6] at h
          exact h

def c5In : TxIn :=
  ⟨List.replicate 36 0, [], List.replicate 4 255⟩

def c5Output : TxOutput :=
  ⟨100, [0, 0x14] ++ List.replicate 20 7⟩

/-- A well-formed one-input, one-P2WPKH-output pre-segwit transaction
(82 serialized bytes; its outputs region spans bytes 46..78). -/
def c5FullTx : RawTx :=
  ⟨[1, 0, 0, 0], false, [c5In], [c5Output], [0, 0, 0, 0]⟩

/-- C5 counterexample: truncating the 82-byte transaction to 58 bytes — in
the middle of the declared output's 22-byte script — does not fail:
`parse_tx_outputs` silently returns the output with a 2-byte script, because
Python slices clamp.  This refutes "fails ... on every input truncated
before the end of its declared inputs or outputs". -/
theorem C5_counterexample :
    TxWF c5FullTx ∧
    (serializeTx c5FullTx).length = 82 ∧
    parse_tx_outputs ((serializeTx c5FullTx).take 58) = some [⟨100, [0, 0x14]⟩] := by
  refine ⟨by decide, by decide, by decide⟩

/-- C5 (amended).  `parse_tx_outputs` returns the ordered `(value_sats,
script_pubkey)` list for every well-formed pre-segwit (with at least one
input) or segwit wire-format transaction, and fails — a raised `IndexError`,
the spec's `MalformedTransaction` — on every input truncated strictly before
the end of its declared inputs.  (Truncation inside the declared outputs may
instead return clamped output data, per the counterexample.) -/
theorem C5_parse_tx_outputs (tx : RawTx) (hwf : TxWF tx) (k : Nat)
    (hk : k < inputsEnd tx) :
    parse_tx_outputs (serializeTx tx) = some tx.outputs ∧
    parse_tx_outputs ((serializeTx tx).take k) = none :=
  ⟨parse_tx_outputs_wellformed tx hwf, parse_tx_outputs_truncated tx hwf k hk⟩

/-- C5 witness: the amended theorem applied to the concrete transaction,
truncated inside its input region. -/
theorem C5_parse_tx_outputs_witness :
    parse_tx_outputs (serializeTx c5FullTx) = some c5FullTx.outputs ∧
    parse_tx_outputs ((serializeTx c5FullTx).take 20) = none :=
  C5_parse_tx_outputs c5FullTx (by decide) 20 (by decide)

/-! ## The SPV proof builder

Embeds `ProofBuilder.build_proof` (`hashcredit_prover/proof_builder.py`) and
`extract_pubkey_hash` / `hex_le_to_bytes` (`bitcoin.py`).  The Bitcoin RPC
responses it awaits (`get_raw_transaction`, `get_headers_in_range` already
hex-decoded to bytes, `get_block_txids`) are a `ChainData` parameter; txids
travel as display-format hex character lists exactly as in the source.
Heights are naturals.  `MAX_HEADER_CHAIN` below is modelled from the spec —
the prover source contains no such constant and no such check. -/

/-- `extract_pubkey_hash(script_pubkey)` (`bitcoin.py`): the P2WPKH and
P2PKH script templates. -/
def extract_pubkey_hash (s : List Nat) : Option (List Nat) × String :=
  if s.length = 22 ∧ s.getD 0 99 = 0x00 ∧ s.getD 1 99 = 0x14 then
    (some (pySlice s 2 22), "p2wpkh")
  else if s.length = 25 ∧ s.getD 0 99 = 0x76 ∧ s.getD 1 99 = 0xA9 ∧
      s.getD 2 99 = 0x14 ∧ s.getD 23 99 = 0x88 ∧ s.getD 24 99 = 0xAC then
    (some (pySlice s 3 23), "p2pkh")
  else (none, "unknown")

def hexDigitChar (n : Nat) : Char :=
  if n < 10 then Char.ofNat (48 + n) else Char.ofNat (87 + n)

/-- Python `bytes.hex()` (lowercase). -/
def bytesHex (bs : List Nat) : List Char :=
  (bs.map fun b => [hexDigitChar (b / 16), hexDigitChar (b % 16)]).flatten

def hexCharVal (c : Char) : Option Nat :=
  if '0' ≤ c ∧ c ≤ '9' then some (c.toNat - 48)
  else if 'a' ≤ c ∧ c ≤ 'f' then some (c.toNat - 87)
  else if 'A' ≤ c ∧ c ≤ 'F' then some (c.toNat - 55)
  else none

/-- Python `bytes.fromhex` on a spaceless hex string (`none` is the raised
`ValueError`; the source never feeds it spaces). -/
def hexToBytes : List Char → Option (List Nat)
  | [] => some []
  | [_] => none
  | c1 :: c2 :: rest =>
    match hexCharVal c1, hexCharVal c2, hexToBytes rest with
    | some hi, some lo, some bs => some ((16 * hi + lo) :: bs)
    | _, _, _ => none

/-- `hex_le_to_bytes` (`bitcoin.py`): decode display hex, reverse to
internal order. -/
def hex_le_to_bytes (s : List Char) : Option (List Nat) :=
  (hexToBytes s).map List.reverse

/-- Modelled from the spec: `MAX_HEADER_CHAIN` (contract-defined, default
144).  Missing from the prover: `build_proof` defines no such constant and
performs no such check. -/
def MAX_HEADER_CHAIN : Nat := 144

inductive BuildError where
  | heightOrdering
  | tipBelowTarget
  | insufficientConfirmations
  | txidMismatch
  | malformedTransaction
  | outputIndexOOB
  | unsupportedScript
  | txNotInBlock
  | badTxidHex
  | merkleGenFailure
  | headerIndexOOB
  | malformedHeader
  | merkleRootMismatch
  deriving Repr, DecidableEq

/-- The chain data `build_proof` fetches over RPC, as an explicit input:
the raw transaction bytes for the requested txid, the header bytes for
`[checkpoint_height+1 .. tip_height]`, and the target block's txid list. -/
structure ChainData where
  rawTx : List Nat
  headers : List (List Nat)
  blockTxids : List (List Char)

structure ProofBuildResult where
  proof : SpvProof
  txid : List Nat
  amount_sats : Nat
  pubkey_hash : List Nat
  script_type : String
  block_height : Nat
  block_timestamp : Nat

/-- `ProofBuilder.build_proof`, step for step: tip default, the three height
validations, txid recomputation check, output parsing and script
extraction, Merkle proof generation, and the target-header Merkle-root
check.  Each `ValueError` becomes a distinct `BuildError`. -/
def build_proof (chain : ChainData) (txid : List Char)
    (output_index checkpoint_height target_height : Nat) (borrower : Nat)
    (tip_height? : Option Nat) : Except BuildError ProofBuildResult :=
  let tip_height := tip_height?.getD (target_height + MIN_CONFIRMATIONS - 1)
  if target_height ≤ checkpoint_height then .error .heightOrdering
  else if tip_height < target_height then .error .tipBelowTarget
  else if tip_height - target_height + 1 < MIN_CONFIRMATIONS then
    .error .insufficientConfirmations
  else
    let tx_block_index := target_height - checkpoint_height - 1
    let raw_tx := chain.rawTx
    let txid_internal := sha256d raw_tx
    if bytesHex txid_internal.reverse ≠ pyLower txid then .error .txidMismatch
    else
      match parse_tx_outputs raw_tx with
      | none => .error .malformedTransaction
      | some outputs =>
        if outputs.length ≤ output_index then .error .outputIndexOOB
        else
          let output := outputs.getD output_index ⟨0, []⟩
          match extract_pubkey_hash output.script_pubkey with
          | (none, _) => .error .unsupportedScript
          | (some pubkey_hash, script_type) =>
            match chain.blockTxids.findIdx? (· == txid) with
            | none => .error .txNotInBlock
            | some tx_index =>
              match chain.blockTxids.mapM hex_le_to_bytes with
              | none => .error .badTxidHex
              | some txids_internal =>
                match generate_merkle_proof txids_internal tx_index with
                | none => .error .merkleGenFailure
                | some (merkle_proof, merkle_root) =>
                  match chain.headers[tx_block_index]? with
                  | none => .error .headerIndexOOB
                  | some hb =>
                    match BlockHeader.from_bytes hb with
                    | none => .error .malformedHeader
                    | some tx_block_header =>
                      if merkle_root ≠ tx_block_header.merkle_root then
                        .error .merkleRootMismatch
                      else
                        .ok ⟨⟨checkpoint_height, chain.headers, tx_block_index,
                            raw_tx, merkle_proof, tx_index, output_index, borrower⟩,
                          txid_internal, output.value, pubkey_hash, script_type,
                          target_height, tx_block_header.timestamp⟩

def buildIsOk : Except BuildError ProofBuildResult → Bool
  | .ok _ => true
  | .error _ => false

def c2Tx : RawTx :=
  ⟨[1, 0, 0, 0], false, [c5In],
    [⟨100000, [0, 0x14] ++ List.replicate 20 0x12⟩], [0, 0, 0, 0]⟩

def c2RawTx : List Nat := serializeTx c2Tx

/-- The display-format txid of `c2RawTx`. -/
def c2Txid : List Char := bytesHex (sha256d c2RawTx).reverse

/-- An 80-byte header whose Merkle root commits to the single transaction. -/
def c2Header : List Nat :=
  List.replicate 4 1 ++ List.replicate 32 0 ++ sha256d c2RawTx ++ List.replicate 12 0

/-- A 145-header chain response (checkpoint 0, tip 145). -/
def c2Chain : ChainData :=
  ⟨c2RawTx, c2Header :: List.replicate 144 (List.replicate 80 0), [c2Txid]⟩

/-- C2 counterexample: with checkpoint 0, target 1, tip 145 — a header chain
of 145 > MAX_HEADER_CHAIN = 144 — `build_proof` succeeds and returns a
proof: no fourth validation exists, refuting "fails whenever tip_height −
checkpoint_height > MAX_HEADER_CHAIN" and "a proof is returned only when
all four hold". -/
theorem C2_counterexample :
    buildIsOk (build_proof c2Chain c2Txid 0 0 1 0 (some 145)) = true ∧
    MAX_HEADER_CHAIN < 145 - 0 := by
  exact ⟨by decide, by decide⟩

/-- C2 (amended).  `build_proof` validates exactly three height conditions
before any chain access — `target_height > checkpoint_height`,
`tip_height ≥ target_height`, and
`tip_height − target_height + 1 ≥ MIN_CONFIRMATIONS` (6) — each failing
with its own error; a proof is returned only when all three hold.  It
performs no `tip_height − checkpoint_height ≤ MAX_HEADER_CHAIN` check and
has no `HeaderChainTooLong` error. -/
theorem C2_build_proof_validation (chain : ChainData) (txid : List Char)
    (oi cp tgt borrower : Nat) (tip? : Option Nat) :
    (tgt ≤ cp →
      build_proof chain txid oi cp tgt borrower tip? = .error .heightOrdering) ∧
    (cp < tgt → tip?.getD (tgt + MIN_CONFIRMATIONS - 1) < tgt →
      build_proof chain txid oi cp tgt borrower tip? = .error .tipBelowTarget) ∧
    (cp < tgt → tgt ≤ tip?.getD (tgt + MIN_CONFIRMATIONS - 1) →
      tip?.getD (tgt + MIN_CONFIRMATIONS - 1) - tgt + 1 < MIN_CONFIRMATIONS →
      build_proof chain txid oi cp tgt borrower tip? =
        .error .insufficientConfirmations) ∧
    (buildIsOk (build_proof chain txid oi cp tgt borrower tip?) = true →
      cp < tgt ∧ tgt ≤ tip?.getD (tgt + MIN_CONFIRMATIONS - 1) ∧
      MIN_CONFIRMATIONS ≤ tip?.getD (tgt + MIN_CONFIRMATIONS - 1) - tgt + 1) := by
  refine ⟨?_, ?_, ?_, ?_⟩
  · intro h1
    unfold build_proof
    rw [if_pos h1]
  · intro h1 h2
    unfold build_proof
    rw [if_neg (by omega), if_pos h2]
  · intro h1 h2 h3
    unfold build_proof
    rw [if_neg (by omega), if_neg (by omega), if_pos h3]
  · intro hok
    unfold build_proof at hok
    by_cases h1 : tgt ≤ cp
    · rw [if_pos h1] at hok; simp [buildIsOk] at hok
    · rw [if_neg h1] at hok
      by_cases h2 : tip?.getD (tgt + MIN_CONFIRMATIONS - 1) < tgt
      · rw [if_pos h2] at hok; simp [buildIsOk] at hok
      · rw [if_neg h2] at hok
        by_cases h3 : tip?.getD (tgt + MIN_CONFIRMATIONS - 1) - tgt + 1 <
            MIN_CONFIRMATIONS
        · rw [if_pos h3] at hok; simp [buildIsOk] at hok
        · exact ⟨by omega, by omega, by omega⟩

/-- C2 witness: the amended theorem at concrete heights — an out-of-order
pair fails with the height-ordering error, and the counterexample scenario's
success implies its three conditions. -/
theorem C2_build_proof_validation_witness :
    build_proof c2Chain c2Txid 0 5 3 0 none = .error .heightOrdering ∧
    (0 < 1 ∧ 1 ≤ (some 145 : Option Nat).getD (1 + MIN_CONFIRMATIONS - 1) ∧
      MIN_CONFIRMATIONS ≤ (some 145 : Option Nat).getD (1 + MIN_CONFIRMATIONS - 1)
        - 1 + 1) :=
  ⟨(C2_build_proof_validation c2Chain c2Txid 0 5 3 0 none).1 (by decide),
   (C2_build_proof_validation c2Chain c2Txid 0 0 1 0 (some 145)).2.2.2
     (by decide)⟩

/-! ## ABI proof encoders

Embeds the two `SpvProof.encode_for_contract` implementations: the prover's
(`hashcredit_prover/proof_builder.py`, an 8-field tuple
`(uint32,bytes[],uint32,bytes,bytes32[],uint256,uint32,address)`) and the
API's (`hashcredit_api/proof.py`, whose `SpvProof` dataclass has no
`tx_block_index` field and encodes a 7-field tuple).  `eth_abi.encode` on a
single dynamic tuple type yields a 32-byte offset word (0x20) followed by
the tuple body: the fixed-size head words — values for static fields,
tail offsets for dynamic ones — then the dynamic tails in field order.
The EVM address is carried as a `Nat` below 2^160. -/

def abiWord (n : Nat) : List Nat := toBEBytes 32 n

def padRight32 (bs : List Nat) : List Nat :=
  bs ++ List.replicate ((32 - bs.length % 32) % 32) 0

/-- ABI `bytes`: length word, then the data zero-padded to a word
boundary. -/
def abiBytes (bs : List Nat) : List Nat := abiWord bs.length ++ padRight32 bs

/-- ABI `bytes[]`: count word, per-element offset words (relative to the
start of the element-head area), then the element encodings. -/
def abiBytesArray (xs : List (List Nat)) : List Nat :=
  let tails := xs.map abiBytes
  abiWord xs.length ++
    ((List.range xs.length).map fun i =>
      abiWord (32 * xs.length + ((tails.take i).map List.length).sum)).flatten ++
    tails.flatten

/-- ABI `bytes32[]`: count word, then the 32-byte elements in place. -/
def abiBytes32Array (xs : List (List Nat)) : List Nat :=
  abiWord xs.length ++ xs.flatten

/-- `p.ljust(32, b"\x00")[:32]` (the API's bytes32 conversion). -/
def ljust32 (q : List Nat) : List Nat :=
  pySlice (q ++ List.replicate (32 - q.length) 0) 0 32

/-- Body of the 8-field tuple
`(uint32,bytes[],uint32,bytes,bytes32[],uint256,uint32,address)`:
head size 8 × 32 = 256. -/
def abiTuple8 (cp : Nat) (headers : List (List Nat)) (tbi : Nat)
    (rawTx : List Nat) (mp32 : List (List Nat)) (ti oi borrower : Nat) :
    List Nat :=
  let tailH := abiBytesArray headers
  let tailR := abiBytes rawTx
  let tailM := abiBytes32Array mp32
  abiWord cp ++ abiWord 256 ++ abiWord tbi ++
    abiWord (256 + tailH.length) ++
    abiWord (256 + tailH.length + tailR.length) ++
    abiWord ti ++ abiWord oi ++ abiWord borrower ++
    tailH ++ tailR ++ tailM

/-- Body of the API's 7-field tuple
`(uint32,bytes[],bytes,bytes32[],uint256,uint32,address)`:
head size 7 × 32 = 224. -/
def abiTuple7 (cp : Nat) (headers : List (List Nat)) (rawTx : List Nat)
    (mp32 : List (List Nat)) (ti oi borrower : Nat) : List Nat :=
  let tailH := abiBytesArray headers
  let tailR := abiBytes rawTx
  let tailM := abiBytes32Array mp32
  abiWord cp ++ abiWord 224 ++
    abiWord (224 + tailH.length) ++
    abiWord (224 + tailH.length + tailR.length) ++
    abiWord ti ++ abiWord oi ++ abiWord borrower ++
    tailH ++ tailR ++ tailM

/-- The comprehension `[bytes.ljust(p, b"\x00")[:32] for p in merkle_proof]`
(prover `proof_builder.py` line 77): `ljust` is invoked unbound with the
fill bytes in the integer width position, so the first element already
raises `TypeError`; the comprehension succeeds only on the empty list. -/
def proverMerkleBytes32 : List (List Nat) → Option (List (List Nat))
  | [] => some []
  | _ :: _ => none

/-- The prover's `SpvProof.encode_for_contract`: the bytes32 conversion,
then the 8-field tuple encoding (`none` is the raised `TypeError`). -/
def SpvProof.encode_for_contract (p : SpvProof) : Option (List Nat) :=
  match proverMerkleBytes32 p.merkle_proof with
  | none => none
  | some mp32 =>
    some (abiWord 32 ++
      abiTuple8 p.checkpoint_height p.headers p.tx_block_index p.raw_tx mp32
        p.tx_index p.output_index p.borrower)

/-- The API's `SpvProof` dataclass (`hashcredit_api/proof.py`): no
`tx_block_index` field. -/
structure ApiSpvProof where
  checkpoint_height : Nat
  headers : List (List Nat)
  raw_tx : List Nat
  merkle_proof : List (List Nat)
  tx_index : Nat
  output_index : Nat
  borrower : Nat
  deriving Repr, DecidableEq

/-- The API's `SpvProof.encode_for_contract`: correct `ljust`, 7-field
tuple. -/
def ApiSpvProof.encode_for_contract (q : ApiSpvProof) : List Nat :=
  abiWord 32 ++
    abiTuple7 q.checkpoint_height q.headers q.raw_tx
      (q.merkle_proof.map ljust32) q.tx_index q.output_index q.borrower

/-- Modelled from the spec and the claim, for comparison with the source
encoders: the ABI encoding of the single 8-field tuple
`(uint32,bytes[],uint32,bytes,bytes32[],uint256,uint32,address)` holding
checkpoint_height, headers, tx_block_index, raw_tx, merkle_proof (each
element left-justified to 32 bytes), tx_index, output_index, borrower. -/
def spec_encode_for_contract (p : SpvProof) : List Nat :=
  abiWord 32 ++
    abiTuple8 p.checkpoint_height p.headers p.tx_block_index p.raw_tx
      (p.merkle_proof.map ljust32) p.tx_index p.output_index p.borrower

/-- The API view of an 8-field proof: the same data minus
`tx_block_index`. -/
def SpvProof.toApi (p : SpvProof) : ApiSpvProof :=
  ⟨p.checkpoint_height, p.headers, p.raw_tx, p.merkle_proof, p.tx_index,
    p.output_index, p.borrower⟩

theorem abiWord_length (n : Nat) : (abiWord n).length = 32 :=
  toBEBytes_length 32 n

theorem abiTuple8_length (cp tbi ti oi b : Nat) (H : List (List Nat))
    (R : List Nat) (M : List (List Nat)) :
    (abiTuple8 cp H tbi R M ti oi b).length =
      256 + (abiBytesArray H).length + (abiBytes R).length +
        (abiBytes32Array M).length := by
  simp only [abiTuple8, List.append_assoc, List.length_append, abiWord_length]
  omega

theorem abiTuple7_length (cp ti oi b : Nat) (H : List (List Nat))
    (R : List Nat) (M : List (List Nat)) :
    (abiTuple7 cp H R M ti oi b).length =
      224 + (abiBytesArray H).length + (abiBytes R).length +
        (abiBytes32Array M).length := by
  simp only [abiTuple7, List.append_assoc, List.length_append, abiWord_length]
  omega

/-- C3.  The claim fails on both sides.  The prover's `encode_for_contract`
raises a `TypeError` (swapped `ljust` arguments) on every proof with a
non-empty `merkle_proof`, producing the 8-field tuple encoding only in the
degenerate empty case.  The API's `SpvProof` carries no `tx_block_index`
and encodes a 7-field tuple: its output is exactly 32 bytes shorter than
the spec's 8-field encoding of the corresponding proof, hence never equal
to it. -/
theorem C3_encode_for_contract :
    (∀ p : SpvProof, p.merkle_proof ≠ [] →
      SpvProof.encode_for_contract p = none) ∧
    (∀ p : SpvProof, p.merkle_proof = [] →
      SpvProof.encode_for_contract p = some (spec_encode_for_contract p)) ∧
    (∀ p : SpvProof,
      (spec_encode_for_contract p).length =
        (ApiSpvProof.encode_for_contract p.toApi).length + 32 ∧
      ApiSpvProof.encode_for_contract p.toApi ≠ spec_encode_for_contract p) := by
  have hlen : ∀ p : SpvProof,
      (spec_encode_for_contract p).length =
        (ApiSpvProof.encode_for_contract p.toApi).length + 32 := by
    intro p
    simp only [spec_encode_for_contract, ApiSpvProof.encode_for_contract,
      SpvProof.toApi, List.length_append, abiWord_length, abiTuple8_length,
      abiTuple7_length]
    omega
  refine ⟨?_, ?_, fun p => ⟨hlen p, ?_⟩⟩
  · intro p h
    cases hm : p.merkle_proof with
    | nil => exact absurd hm h
    | cons a l =>
      simp only [SpvProof.encode_for_contract, hm, proverMerkleBytes32]
  · intro p hm
    simp only [SpvProof.encode_for_contract, hm, proverMerkleBytes32,
      spec_encode_for_contract, List.map_nil]
  · intro h
    have := congrArg List.length h
    rw [hlen p] at this
    omega

def c3Full : SpvProof := ⟨7, [[1]], 2, [5, 6], [[9]], 3, 1, 0xAB⟩

def c3Empty : SpvProof := ⟨7, [[1]], 2, [5, 6], [], 3, 1, 0xAB⟩

/-- C3 witness: the theorem applied at a proof with a one-element Merkle
proof (the encoder fails) and at one with an empty Merkle proof (the
encoder returns the spec's 8-field encoding). -/
theorem C3_encode_for_contract_witness :
    SpvProof.encode_for_contract c3Full = none ∧
    SpvProof.encode_for_contract c3Empty =
      some (spec_encode_for_contract c3Empty) :=
  ⟨C3_encode_for_contract.1 c3Full (by decide),
   C3_encode_for_contract.2.1 c3Empty (by decide)⟩

/-! ## HMAC claim tokens

Embeds `hashcredit_api/claim.py`: `_b64url_encode` / `_b64url_decode`,
`ClaimPayload.to_json_bytes` / `from_json_bytes`, `issue_claim_token` and
`verify_claim_token`.  Strings travel as UTF-8 byte lists; the effects
(`time.time()`, `secrets.token_urlsafe`) become explicit `now` / `nonce`
parameters.  `json.dumps(..., separators=(",", ":"), sort_keys=True)` emits
one canonical shape, and `from_json_bytes` below parses exactly that shape
(sorted keys, no whitespace, non-negative integers): a strict
under-approximation of `json.loads` — every body the parser accepts the
source accepts with the same payload, and every success statement proved
below concerns such canonical bodies.  `base64.urlsafe_b64decode` silently
drops non-alphabet bytes before decoding; the decoder below instead rejects
them, and is only ever applied to alphabet-only data, where the two
agree. -/

def b64Char (n : Nat) : Nat :=
  if n < 26 then 65 + n
  else if n < 52 then 97 + (n - 26)
  else if n < 62 then 48 + (n - 52)
  else if n = 62 then 45
  else 95

def b64Val (c : Nat) : Option Nat :=
  if 65 ≤ c ∧ c ≤ 90 then some (c - 65)
  else if 97 ≤ c ∧ c ≤ 122 then some (c - 97 + 26)
  else if 48 ≤ c ∧ c ≤ 57 then some (c - 48 + 52)
  else if c = 45 then some 62
  else if c = 95 then some 63
  else none

/-- `_b64url_encode`: urlsafe base64 with the `=` padding stripped. -/
def b64urlEncode : List Nat → List Nat
  | b0 :: b1 :: b2 :: rest =>
    b64Char (b0 / 4) :: b64Char (b0 % 4 * 16 + b1 / 16) ::
      b64Char (b1 % 16 * 4 + b2 / 64) :: b64Char (b2 % 64) :: b64urlEncode rest
  | [b0, b1] => [b64Char (b0 / 4), b64Char (b0 % 4 * 16 + b1 / 16), b64Char (b1 % 16 * 4)]
  | [b0] => [b64Char (b0 / 4), b64Char (b0 % 4 * 16)]
  | [] => []

/-- `_b64url_decode`: re-pad to a multiple of four and decode (`none` is the
raised `binascii.Error`, e.g. on length ≡ 1 mod 4). -/
def b64urlDecode : List Nat → Option (List Nat)
  | [] => some []
  | [_] => none
  | [c0, c1] =>
    match b64Val c0, b64Val c1 with
    | some v0, some v1 => some [v0 * 4 + v1 / 16]
    | _, _ => none
  | [c0, c1, c2] =>
    match b64Val c0, b64Val c1, b64Val c2 with
    | some v0, some v1, some v2 =>
      some [v0 * 4 + v1 / 16, v1 % 16 * 16 + v2 / 4]
    | _, _, _ => none
  | c0 :: c1 :: c2 :: c3 :: rest =>
    match b64Val c0, b64Val c1, b64Val c2, b64Val c3, b64urlDecode rest with
    | some v0, some v1, some v2, some v3, some bs =>
      some ((v0 * 4 + v1 / 16) :: (v1 % 16 * 16 + v2 / 4) :: (v2 % 4 * 64 + v3) :: bs)
    | _, _, _, _, _ => none

/-- `hmac.new(key, msg, hashlib.sha256).digest()` (RFC 2104, block size
64): keys longer than a block are hashed, then zero-padded — so two keys
equal after zero-padding yield identical MACs. -/
def hmacSha256 (key msg : List Nat) : List Nat :=
  let k0 := if 64 < key.length then sha256 key else key
  let kp := k0 ++ List.replicate (64 - k0.length) 0
  sha256 ((kp.map fun b => Nat.xor b 0x5C) ++
    sha256 ((kp.map fun b => Nat.xor b 0x36) ++ msg))

/-- `token.split(".", 1)` combined with the `"." in token` guard: the text
before and after the first `.` (byte 46), `none` when there is none. -/
def splitFirst (sep : Nat) : List Nat → Option (List Nat × List Nat)
  | [] => none
  | c :: rest =>
    if c = sep then some ([], rest)
    else (splitFirst sep rest).map fun p => (c :: p.1, p.2)

structure ClaimPayload where
  version : Nat
  borrower : List Nat
  btc_address : List Nat
  nonce : List Nat
  chain_id : Nat
  issued_at : Nat
  expires_at : Nat
  deriving Repr, DecidableEq

/-- The UTF-8 bytes of an ASCII string literal. -/
def asciiBytes (s : String) : List Nat := s.toList.map Char.toNat

/-- `json.dumps` escaping of one byte of a string value. -/
def jsonEscapeChar (c : Nat) : List Nat :=
  if c = 34 then [92, 34]
  else if c = 92 then [92, 92]
  else if c = 8 then [92, 98]
  else if c = 9 then [92, 116]
  else if c = 10 then [92, 110]
  else if c = 12 then [92, 102]
  else if c = 13 then [92, 114]
  else if c < 32 then
    [92, 117, 48, 48, 48 + c / 16, if c % 16 < 10 then 48 + c % 16 else 87 + c % 16]
  else [c]

/-- A JSON string literal. -/
def jsonStr (s : List Nat) : List Nat :=
  34 :: (s.map jsonEscapeChar).flatten ++ [34]

/-- Decimal digits of a natural number. -/
def natDecAux : Nat → Nat → List Nat
  | 0, _ => []
  | fuel + 1, n => if n < 10 then [48 + n] else natDecAux fuel (n / 10) ++ [48 + n % 10]

def natDec (n : Nat) : List Nat := natDecAux (n + 1) n

/-- `ClaimPayload.to_json_bytes`: `json.dumps` with `separators=(",", ":")`
and `sort_keys=True` — the keys in sorted order `borrower, btc_address,
chain_id, exp, iat, nonce, v`, no whitespace. -/
def ClaimPayload.to_json_bytes (p : ClaimPayload) : List Nat :=
  asciiBytes "\x7b\"borrower\":" ++ jsonStr p.borrower ++
    asciiBytes ",\"btc_address\":" ++ jsonStr p.btc_address ++
    asciiBytes ",\"chain_id\":" ++ natDec p.chain_id ++
    asciiBytes ",\"exp\":" ++ natDec p.expires_at ++
    asciiBytes ",\"iat\":" ++ natDec p.issued_at ++
    asciiBytes ",\"nonce\":" ++ jsonStr p.nonce ++
    asciiBytes ",\"v\":" ++ natDec p.version ++ asciiBytes "\x7d"

def expectLit : List Nat → List Nat → Option (List Nat)
  | [], data => some data
  | _ :: _, [] => none
  | p :: ps, c :: cs => if c = p then expectLit ps cs else none

/-- Body of a JSON string literal after its opening quote: unescape up to
the closing quote (`\uXXXX` only for ASCII code points). -/
def parseJsonStrAux : Nat → List Nat → Option (List Nat × List Nat)
  | 0, _ => none
  | _ + 1, [] => none
  | fuel + 1, c :: cs =>
    if c = 34 then some ([], cs)
    else if c = 92 then
      match cs with
      | 34 :: cs2 => (parseJsonStrAux fuel cs2).map fun p => (34 :: p.1, p.2)
      | 92 :: cs2 => (parseJsonStrAux fuel cs2).map fun p => (92 :: p.1, p.2)
      | 98 :: cs2 => (parseJsonStrAux fuel cs2).map fun p => (8 :: p.1, p.2)
      | 116 :: cs2 => (parseJsonStrAux fuel cs2).map fun p => (9 :: p.1, p.2)
      | 110 :: cs2 => (parseJsonStrAux fuel cs2).map fun p => (10 :: p.1, p.2)
      | 102 :: cs2 => (parseJsonStrAux fuel cs2).map fun p => (12 :: p.1, p.2)
      | 114 :: cs2 => (parseJsonStrAux fuel cs2).map fun p => (13 :: p.1, p.2)
      | 117 :: h0 :: h1 :: h2 :: h3 :: cs2 =>
        match hexCharVal (Char.ofNat h0), hexCharVal (Char.ofNat h1),
            hexCharVal (Char.ofNat h2), hexCharVal (Char.ofNat h3) with
        | some x0, some x1, some x2, some x3 =>
          if x0 * 4096 + x1 * 256 + x2 * 16 + x3 < 128 then
            (parseJsonStrAux fuel cs2).map fun p =>
              ((x0 * 4096 + x1 * 256 + x2 * 16 + x3) :: p.1, p.2)
          else none
        | _, _, _, _ => none
      | _ => none
    else if c < 32 then none
    else (parseJsonStrAux fuel cs).map fun p => (c :: p.1, p.2)

def parseJsonString (data : List Nat) : Option (List Nat × List Nat) :=
  match data with
  | 34 :: cs => parseJsonStrAux cs.length cs
  | _ => none

def parseNatAux : List Nat → Nat → Nat × List Nat
  | [], acc => (acc, [])
  | c :: cs, acc =>
    if 48 ≤ c ∧ c ≤ 57 then parseNatAux cs (acc * 10 + (c - 48)) else (acc, c :: cs)

def parseJsonNat (data : List Nat) : Option (Nat × List Nat) :=
  match data with
  | c :: cs => if 48 ≤ c ∧ c ≤ 57 then some (parseNatAux (c :: cs) 0) else none
  | [] => none

/-- `ClaimPayload.from_json_bytes`: `json.loads` followed by the seven
field extractions, as a parser for the canonical shape `to_json_bytes`
emits (`none` is a raised `ValueError`/`KeyError`). -/
def ClaimPayload.from_json_bytes (raw : List Nat) : Option ClaimPayload :=
  match expectLit (asciiBytes "\x7b\"borrower\":") raw with
  | none => none
  | some r1 =>
    match parseJsonString r1 with
    | none => none
    | some (borrower, r2) =>
      match expectLit (asciiBytes ",\"btc_address\":") r2 with
      | none => none
      | some r3 =>
        match parseJsonString r3 with
        | none => none
        | some (btc_address, r4) =>
          match expectLit (asciiBytes ",\"chain_id\":") r4 with
          | none => none
          | some r5 =>
            match parseJsonNat r5 with
            | none => none
            | some (chain_id, r6) =>
              match expectLit (asciiBytes ",\"exp\":") r6 with
              | none => none
              | some r7 =>
                match parseJsonNat r7 with
                | none => none
                | some (expires_at, r8) =>
                  match expectLit (asciiBytes ",\"iat\":") r8 with
                  | none => none
                  | some r9 =>
                    match parseJsonNat r9 with
                    | none => none
                    | some (issued_at, r10) =>
                      match expectLit (asciiBytes ",\"nonce\":") r10 with
                      | none => none
                      | some r11 =>
                        match parseJsonString r11 with
                        | none => none
                        | some (nonce, r12) =>
                          match expectLit (asciiBytes ",\"v\":") r12 with
                          | none => none
                          | some r13 =>
                            match parseJsonNat r13 with
                            | none => none
                            | some (version, r14) =>
                              match expectLit (asciiBytes "\x7d") r14 with
                              | none => none
                              | some r15 =>
                                if r15 = [] then
                                  some ⟨version, borrower, btc_address, nonce,
                                    chain_id, issued_at, expires_at⟩
                                else none

/-- `issue_claim_token` with `int(time.time())` and
`secrets.token_urlsafe(16)` as the parameters `now` and `nonce`. -/
def issue_claim_token (secret borrower btc_address : List Nat)
    (chain_id ttl_seconds : Nat) (now : Nat) (nonce : List Nat) :
    List Nat × ClaimPayload :=
  let payload : ClaimPayload :=
    ⟨1, borrower, btc_address, nonce, chain_id, now, now + max 60 ttl_seconds⟩
  let body := payload.to_json_bytes
  let mac := hmacSha256 secret body
  (b64urlEncode body ++ 46 :: b64urlEncode mac, payload)

inductive ClaimError where
  | invalidFormat
  | invalidBase64
  | invalidSignature
  | malformedPayload
  | expired
  | issuedInFuture
  deriving Repr, DecidableEq

/-- `verify_claim_token`: split at the first `.`, base64-decode both
halves, compare the MAC, parse the payload, then the `exp` and `iat`
checks — note no check of `payload.version` anywhere. -/
def verify_claim_token (secret token : List Nat) (now : Nat) :
    Except ClaimError ClaimPayload :=
  match splitFirst 46 token with
  | none => .error .invalidFormat
  | some (body_b64, mac_b64) =>
    match b64urlDecode body_b64, b64urlDecode mac_b64 with
    | some body, some mac =>
      if mac = hmacSha256 secret body then
        match ClaimPayload.from_json_bytes body with
        | none => .error .malformedPayload
        | some payload =>
          if payload.expires_at < now then .error .expired
          else if now + 60 < payload.issued_at then .error .issuedInFuture
          else .ok payload
      else .error .invalidSignature
    | _, _ => .error .invalidBase64

theorem b64Val_b64Char : ∀ n < 64, b64Val (b64Char n) = some n := by decide

theorem b64Char_ne46 : ∀ n < 64, b64Char n ≠ 46 := by decide

theorem b64urlEncode_ne46 (bs : List Nat) (h : ∀ b ∈ bs, b < 256) :
    ∀ c ∈ b64urlEncode bs, c ≠ 46 := by
  induction bs using b64urlEncode.induct with
  | case1 b0 b1 b2 rest ih =>
    have h0 := h b0 (by simp)
    have h1 := h b1 (by simp)
    have h2 := h b2 (by simp)
    intro c hc
    simp only [b64urlEncode, List.mem_cons] at hc
    rcases hc with rfl | rfl | rfl | rfl | hc
    · exact b64Char_ne46 _ (by omega)
    · exact b64Char_ne46 _ (by omega)
    · exact b64Char_ne46 _ (by omega)
    · exact b64Char_ne46 _ (by omega)
    · exact ih (fun b hb => h b (by simp [hb])) c hc
  | case2 b0 b1 =>
    have h0 := h b0 (by simp)
    have h1 := h b1 (by simp)
    intro c hc
    simp only [b64urlEncode, List.mem_cons, List.not_mem_nil, or_false] at hc
    rcases hc with rfl | rfl | rfl
    · exact b64Char_ne46 _ (by omega)
    · exact b64Char_ne46 _ (by omega)
    · exact b64Char_ne46 _ (by omega)
  | case3 b0 =>
    have h0 := h b0 (by simp)
    intro c hc
    simp only [b64urlEncode, List.mem_cons, List.not_mem_nil, or_false] at hc
    rcases hc with rfl | rfl
    · exact b64Char_ne46 _ (by omega)
    · exact b64Char_ne46 _ (by omega)
  | case4 =>
    intro c hc
    simp [b64urlEncode] at hc

theorem b64_roundtrip (bs : List Nat) (h : ∀ b ∈ bs, b < 256) :
    b64urlDecode (b64urlEncode bs) = some bs := by
  induction bs using b64urlEncode.induct with
  | case1 b0 b1 b2 rest ih =>
    have h0 := h b0 (by simp)
    have h1 := h b1 (by simp)
    have h2 := h b2 (by simp)
    simp only [b64urlEncode, b64urlDecode,
      b64Val_b64Char (b0 / 4) (by omega),
      b64Val_b64Char (b0 % 4 * 16 + b1 / 16) (by omega),
      b64Val_b64Char (b1 % 16 * 4 + b2 / 64) (by omega),
      b64Val_b64Char (b2 % 64) (by omega),
      ih (fun b hb => h b (by simp [hb]))]
    have e0 : b0 / 4 * 4 + (b0 % 4 * 16 + b1 / 16) / 16 = b0 := by omega
    have e1 : (b0 % 4 * 16 + b1 / 16) % 16 * 16 + (b1 % 16 * 4 + b2 / 64) / 4 = b1 := by
      omega
    have e2 : (b1 % 16 * 4 + b2 / 64) % 4 * 64 + b2 % 64 = b2 := by omega
    rw [e0, e1, e2]
  | case2 b0 b1 =>
    have h0 := h b0 (by simp)
    have h1 := h b1 (by simp)
    simp only [b64urlEncode, b64urlDecode,
      b64Val_b64Char (b0 / 4) (by omega),
      b64Val_b64Char (b0 % 4 * 16 + b1 / 16) (by omega),
      b64Val_b64Char (b1 % 16 * 4) (by omega)]
    have e0 : b0 / 4 * 4 + (b0 % 4 * 16 + b1 / 16) / 16 = b0 := by omega
    have e1 : (b0 % 4 * 16 + b1 / 16) % 16 * 16 + b1 % 16 * 4 / 4 = b1 := by omega
    rw [e0, e1]
  | case3 b0 =>
    have h0 := h b0 (by simp)
    simp only [b64urlEncode, b64urlDecode,
      b64Val_b64Char (b0 / 4) (by omega),
      b64Val_b64Char (b0 % 4 * 16) (by omega)]
    have e0 : b0 / 4 * 4 + b0 % 4 * 16 / 16 = b0 := by omega
    rw [e0]
  | case4 => rfl

theorem splitFirst_append (sep : Nat) (xs ys : List Nat)
    (h : ∀ c ∈ xs, c ≠ sep) : splitFirst sep (xs ++ sep :: ys) = some (xs, ys) := by
  induction xs with
  | nil =>
    simp [splitFirst]
  | cons c rest ih =>
    have hc : c ≠ sep := h c (by simp)
    simp only [List.cons_append, splitFirst, if_neg hc, List.append_eq,
      ih (fun d hd => h d (by simp [hd]))]
    rfl

theorem expectLit_append (pat rest : List Nat) :
    expectLit pat (pat ++ rest) = some rest := by
  induction pat with
  | nil => rfl
  | cons p ps ih =>
    simp only [List.cons_append, expectLit, eq_self_iff_true, if_true,
      List.append_eq, ih]

theorem expectLit_self (pat : List Nat) : expectLit pat pat = some [] := by
  have := expectLit_append pat []
  rwa [List.append_nil] at this

/-- Bytes of a string value that `json.dumps` passes through unescaped:
printable ASCII other than the quote and the backslash. -/
def jsonPlain (s : List Nat) : Bool :=
  s.all fun c => 32 ≤ c && c ≤ 126 && c != 34 && c != 92

theorem jsonEscapeChar_plain (c : Nat) (h1 : 32 ≤ c) (h2 : c ≤ 126)
    (h3 : c ≠ 34) (h4 : c ≠ 92) : jsonEscapeChar c = [c] := by
  unfold jsonEscapeChar
  rw [if_neg h3, if_neg h4, if_neg (by omega), if_neg (by omega),
    if_neg (by omega), if_neg (by omega), if_neg (by omega),
    if_neg (by omega)]

theorem jsonEscape_flatten (s : List Nat) (h : jsonPlain s = true) :
    (s.map jsonEscapeChar).flatten = s := by
  induction s with
  | nil => rfl
  | cons c rest ih =>
    simp only [jsonPlain, List.all_cons, Bool.and_eq_true, bne_iff_ne,
      decide_eq_true_eq] at h
    obtain ⟨⟨⟨⟨h1, h2⟩, h3⟩, h4⟩, h5⟩ := h
    simp only [List.map_cons, List.flatten_cons,
      jsonEscapeChar_plain c h1 h2 h3 h4, List.singleton_append,
      ih (by simp [jsonPlain, h5])]

theorem parseJsonStrAux_plain (s : List Nat) : ∀ (f : Nat) (rest : List Nat),
    jsonPlain s = true → s.length + 1 ≤ f →
    parseJsonStrAux f (s ++ 34 :: rest) = some (s, rest) := by
  induction s with
  | nil =>
    intro f rest _ hf
    obtain ⟨f2, rfl⟩ : ∃ f2, f = f2 + 1 := ⟨f - 1, by omega⟩
    simp [parseJsonStrAux]
  | cons c cs ih =>
    intro f rest h hf
    obtain ⟨f2, rfl⟩ : ∃ f2, f = f2 + 1 := ⟨f - 1, by omega⟩
    simp only [jsonPlain, List.all_cons, Bool.and_eq_true, bne_iff_ne,
      decide_eq_true_eq] at h
    obtain ⟨⟨⟨⟨h1, h2⟩, h3⟩, h4⟩, h5⟩ := h
    simp only [List.cons_append, parseJsonStrAux, if_neg h3, if_neg h4,
      if_neg (by omega : ¬c < 32), List.append_eq,
      ih f2 rest (by simp [jsonPlain, h5]) (by simp at hf; omega)]
    rfl

theorem parseJsonString_jsonStr (s rest : List Nat) (h : jsonPlain s = true) :
    parseJsonString (jsonStr s ++ rest) = some (s, rest) := by
  have hshape : jsonStr s ++ rest = 34 :: (s ++ 34 :: rest) := by
    simp [jsonStr, jsonEscape_flatten s h]
  rw [hshape]
  show parseJsonStrAux (s ++ 34 :: rest).length (s ++ 34 :: rest) = some (s, rest)
  exact parseJsonStrAux_plain s _ rest h (by simp)

theorem natDecAux_digits : ∀ (f n : Nat), ∀ d ∈ natDecAux f n, 48 ≤ d ∧ d ≤ 57 := by
  intro f
  induction f with
  | zero => intro n d hd; simp [natDecAux] at hd
  | succ f2 ih =>
    intro n d hd
    unfold natDecAux at hd
    by_cases h10 : n < 10
    · rw [if_pos h10] at hd
      simp only [List.mem_singleton] at hd
      omega
    · rw [if_neg h10] at hd
      rcases List.mem_append.mp hd with hd | hd
      · exact ih (n / 10) d hd
      · simp only [List.mem_singleton] at hd
        omega

theorem natDecAux_foldl : ∀ (f n acc : Nat), n < f →
    (natDecAux f n).foldl (fun a d => a * 10 + (d - 48)) acc =
      acc * 10 ^ (natDecAux f n).length + n := by
  intro f
  induction f with
  | zero => intro n acc h; omega
  | succ f2 ih =>
    intro n acc h
    unfold natDecAux
    by_cases h10 : n < 10
    · rw [if_pos h10]
      simp only [List.foldl_cons, List.foldl_nil, List.length_singleton, pow_one]
      omega
    · rw [if_neg h10]
      rw [List.foldl_append]
      simp only [List.foldl_cons, List.foldl_nil, List.length_append,
        List.length_singleton]
      rw [ih (n / 10) acc (by omega)]
      rw [pow_succ]
      have hmod : n / 10 * 10 + (48 + n % 10 - 48) = n := by omega
      calc (acc * 10 ^ (natDecAux f2 (n / 10)).length + n / 10) * 10 +
            (48 + n % 10 - 48)
          = acc * (10 ^ (natDecAux f2 (n / 10)).length * 10) +
            (n / 10 * 10 + (48 + n % 10 - 48)) := by ring
        _ = acc * (10 ^ (natDecAux f2 (n / 10)).length * 10) + n := by rw [hmod]

theorem natDec_digits (n : Nat) : ∀ d ∈ natDec n, 48 ≤ d ∧ d ≤ 57 :=
  natDecAux_digits (n + 1) n

theorem natDec_ne_nil (n : Nat) : natDec n ≠ [] := by
  unfold natDec natDecAux
  by_cases h10 : n < 10
  · rw [if_pos h10]; simp
  · rw [if_neg h10]; simp

theorem natDec_foldl (n : Nat) :
    (natDec n).foldl (fun a d => a * 10 + (d - 48)) 0 = n := by
  have := natDecAux_foldl (n + 1) n 0 (by omega)
  simpa [natDec] using this

theorem parseNatAux_append : ∀ (ds : List Nat) (acc : Nat) (c0 : Nat)
    (rest : List Nat), (∀ d ∈ ds, 48 ≤ d ∧ d ≤ 57) → ¬(48 ≤ c0 ∧ c0 ≤ 57) →
    parseNatAux (ds ++ c0 :: rest) acc =
      (ds.foldl (fun a d => a * 10 + (d - 48)) acc, c0 :: rest) := by
  intro ds
  induction ds with
  | nil =>
    intro acc c0 rest _ hc
    simp only [List.nil_append, parseNatAux, if_neg hc, List.foldl_nil]
  | cons d ds2 ih =>
    intro acc c0 rest hd hc
    have hd0 := hd d (by simp)
    simp only [List.cons_append, parseNatAux, if_pos hd0, List.foldl_cons]
    exact ih _ c0 rest (fun e he => hd e (by simp [he])) hc

theorem parseJsonNat_natDec (n c0 : Nat) (rest : List Nat)
    (hc : ¬(48 ≤ c0 ∧ c0 ≤ 57)) :
    parseJsonNat (natDec n ++ c0 :: rest) = some (n, c0 :: rest) := by
  cases hnd : natDec n with
  | nil => exact absurd hnd (natDec_ne_nil n)
  | cons d ds =>
    have hdig : ∀ e ∈ d :: ds, 48 ≤ e ∧ e ≤ 57 := by
      rw [← hnd]; exact natDec_digits n
    have hd0 := hdig d (by simp)
    simp only [List.cons_append, parseJsonNat, if_pos hd0]
    rw [show d :: (ds ++ c0 :: rest) = (d :: ds) ++ c0 :: rest from rfl,
      parseNatAux_append (d :: ds) 0 c0 rest hdig hc]
    have := natDec_foldl n
    rw [hnd] at this
    rw [this]

theorem parseJsonNat_natDec44 (n : Nat) (rest : List Nat) :
    parseJsonNat (natDec n ++ 44 :: rest) = some (n, 44 :: rest) :=
  parseJsonNat_natDec n 44 rest (by omega)

theorem parseJsonNat_natDec125 (n : Nat) (rest : List Nat) :
    parseJsonNat (natDec n ++ 125 :: rest) = some (n, 125 :: rest) :=
  parseJsonNat_natDec n 125 rest (by omega)

theorem jsonStr_lt (s : List Nat) (h : jsonPlain s = true) :
    ∀ b ∈ jsonStr s, b < 256 := by
  intro b hb
  simp only [jsonStr, jsonEscape_flatten s h, List.mem_cons, List.mem_append,
    List.mem_singleton] at hb
  have hs : ∀ c ∈ s, c < 256 := by
    intro c hc
    simp only [jsonPlain, List.all_eq_true, Bool.and_eq_true,
      decide_eq_true_eq] at h
    have hcc := h c hc
    omega
  have hb2 : b = 34 ∨ b ∈ s := by tauto
  rcases hb2 with rfl | hb2
  · omega
  · exact hs b hb2

theorem natDec_lt (n : Nat) : ∀ b ∈ natDec n, b < 256 := by
  intro b hb
  have := natDec_digits n b hb
  omega

theorem to_json_bytes_lt (p : ClaimPayload) (hb : jsonPlain p.borrower = true)
    (ha : jsonPlain p.btc_address = true) (hn : jsonPlain p.nonce = true) :
    ∀ b ∈ p.to_json_bytes, b < 256 := by
  simp only [ClaimPayload.to_json_bytes, List.forall_mem_append]
  exact ⟨⟨⟨⟨⟨⟨⟨⟨⟨⟨⟨⟨⟨⟨(by decide : ∀ c ∈ asciiBytes "\x7b\"borrower\":", c < 256),
    jsonStr_lt _ hb⟩,
    (by decide : ∀ c ∈ asciiBytes ",\"btc_address\":", c < 256)⟩,
    jsonStr_lt _ ha⟩,
    (by decide : ∀ c ∈ asciiBytes ",\"chain_id\":", c < 256)⟩,
    natDec_lt _⟩,
    (by decide : ∀ c ∈ asciiBytes ",\"exp\":", c < 256)⟩,
    natDec_lt _⟩,
    (by decide : ∀ c ∈ asciiBytes ",\"iat\":", c < 256)⟩,
    natDec_lt _⟩,
    (by decide : ∀ c ∈ asciiBytes ",\"nonce\":", c < 256)⟩,
    jsonStr_lt _ hn⟩,
    (by decide : ∀ c ∈ asciiBytes ",\"v\":", c < 256)⟩,
    natDec_lt _⟩,
    (by decide : ∀ c ∈ asciiBytes "\x7d", c < 256)⟩

theorem hmacSha256_lt (key msg : List Nat) : ∀ b ∈ hmacSha256 key msg, b < 256 := by
  intro b hb
  simp only [hmacSha256] at hb
  exact sha256_byte_lt _ b hb

theorem parseJsonString_plain (s rest : List Nat) (h : jsonPlain s = true) :
    parseJsonString (34 :: (s ++ 34 :: rest)) = some (s, rest) := by
  show parseJsonStrAux (s ++ 34 :: rest).length (s ++ 34 :: rest) = some (s, rest)
  exact parseJsonStrAux_plain s _ rest h (by simp)

theorem from_to_json (p : ClaimPayload) (hb : jsonPlain p.borrower = true)
    (ha : jsonPlain p.btc_address = true) (hn : jsonPlain p.nonce = true) :
    ClaimPayload.from_json_bytes p.to_json_bytes = some p := by
  obtain ⟨v, bo, bt, no, ch, ia, ex⟩ := p
  simp only at hb ha hn
  have e1 : asciiBytes "\x7b\"borrower\":" =
      [123, 34, 98, 111, 114, 114, 111, 119, 101, 114, 34, 58] := by decide
  have e2 : asciiBytes ",\"btc_address\":" =
      [44, 34, 98, 116, 99, 95, 97, 100, 100, 114, 101, 115, 115, 34, 58] := by decide
  have e3 : asciiBytes ",\"chain_id\":" =
      [44, 34, 99, 104, 97, 105, 110, 95, 105, 100, 34, 58] := by decide
  have e4 : asciiBytes ",\"exp\":" = [44, 34, 101, 120, 112, 34, 58] := by decide
  have e5 : asciiBytes ",\"iat\":" = [44, 34, 105, 97, 116, 34, 58] := by decide
  have e6 : asciiBytes ",\"nonce\":" =
      [44, 34, 110, 111, 110, 99, 101, 34, 58] := by decide
  have e7 : asciiBytes ",\"v\":" = [44, 34, 118, 34, 58] := by decide
  have e8 : asciiBytes "\x7d" = [125] := by decide
  have jb : jsonStr bo = 34 :: (bo ++ [34]) := by
    simp [jsonStr, jsonEscape_flatten bo hb]
  have jt : jsonStr bt = 34 :: (bt ++ [34]) := by
    simp [jsonStr, jsonEscape_flatten bt ha]
  have jn : jsonStr no = 34 :: (no ++ [34]) := by
    simp [jsonStr, jsonEscape_flatten no hn]
  simp only [ClaimPayload.from_json_bytes, ClaimPayload.to_json_bytes,
    e1, e2, e3, e4, e5, e6, e7, e8, jb, jt, jn, List.cons_append,
    List.append_assoc, List.singleton_append, List.nil_append]
  simp only [expectLit, if_true, eq_self_iff_true, List.cons_append,
    List.append_assoc, List.singleton_append, List.nil_append,
    parseJsonString_plain bo _ hb, parseJsonString_plain bt _ ha,
    parseJsonString_plain no _ hn, parseJsonNat_natDec44, parseJsonNat_natDec125]

/-- A token built as `b64(body).b64(HMAC(secret, body))` from a payload with
plain-ASCII strings verifies up to the freshness checks, returning exactly
the payload. -/
theorem verify_encoded_payload (secret : List Nat) (pay : ClaimPayload)
    (now2 : Nat) (hb : jsonPlain pay.borrower = true)
    (ha : jsonPlain pay.btc_address = true) (hn : jsonPlain pay.nonce = true) :
    verify_claim_token secret
      (b64urlEncode pay.to_json_bytes ++
        46 :: b64urlEncode (hmacSha256 secret pay.to_json_bytes)) now2 =
      if pay.expires_at < now2 then .error .expired
      else if now2 + 60 < pay.issued_at then .error .issuedInFuture
      else .ok pay := by
  have hlt := to_json_bytes_lt pay hb ha hn
  have hsp : splitFirst 46
      (b64urlEncode pay.to_json_bytes ++
        46 :: b64urlEncode (hmacSha256 secret pay.to_json_bytes)) =
      some (b64urlEncode pay.to_json_bytes,
        b64urlEncode (hmacSha256 secret pay.to_json_bytes)) :=
    splitFirst_append 46 _ _ (b64urlEncode_ne46 _ hlt)
  simp only [verify_claim_token, hsp, b64_roundtrip _ hlt,
    b64_roundtrip _ (hmacSha256_lt secret pay.to_json_bytes),
    eq_self_iff_true, if_true, from_to_json pay hb ha hn]

/-- C9 (amended).  A token produced by `issue_claim_token` (plain-ASCII
borrower, address and nonce) verifies under the same secret at any `now`
within `[iat, exp]` and `verify_claim_token` returns the original payload;
it fails with the expiry error when `exp < now` and with the freshness
error when `iat > now + 60`; and any verification success means the token
split at its first dot, both halves base64url-decoded, the MAC equalled
`HMAC-SHA256(secret, body)`, the body parsed, and `exp ≥ now` and
`iat ≤ now + 60` held.  No condition on `payload.version` appears: the
source never checks it (see the counterexample, which also refutes
"fails under any different secret" via HMAC zero-padding of short
keys). -/
theorem C9_claim_token :
    (∀ (secret borrower btc_address nonce : List Nat) (chain_id ttl now now2 : Nat),
      jsonPlain borrower = true → jsonPlain btc_address = true →
      jsonPlain nonce = true → now ≤ now2 → now2 ≤ now + max 60 ttl →
      verify_claim_token secret
          (issue_claim_token secret borrower btc_address chain_id ttl now nonce).1
          now2 =
        .ok (issue_claim_token secret borrower btc_address chain_id ttl now nonce).2) ∧
    (∀ (secret borrower btc_address nonce : List Nat) (chain_id ttl now now2 : Nat),
      jsonPlain borrower = true → jsonPlain btc_address = true →
      jsonPlain nonce = true → now + max 60 ttl < now2 →
      verify_claim_token secret
          (issue_claim_token secret borrower btc_address chain_id ttl now nonce).1
          now2 =
        .error .expired) ∧
    (∀ (secret borrower btc_address nonce : List Nat) (chain_id ttl now now2 : Nat),
      jsonPlain borrower = true → jsonPlain btc_address = true →
      jsonPlain nonce = true → now2 + 60 < now →
      verify_claim_token secret
          (issue_claim_token secret borrower btc_address chain_id ttl now nonce).1
          now2 =
        .error .issuedInFuture) ∧
    (∀ (secret token : List Nat) (now : Nat) (p : ClaimPayload),
      verify_claim_token secret token now = .ok p →
      (∃ bb mb body, splitFirst 46 token = some (bb, mb) ∧
        b64urlDecode bb = some body ∧
        b64urlDecode mb = some (hmacSha256 secret body) ∧
        ClaimPayload.from_json_bytes body = some p) ∧
      now ≤ p.expires_at ∧ p.issued_at ≤ now + 60) := by
  have hred : ∀ (secret borrower btc_address nonce : List Nat)
      (chain_id ttl now now2 : Nat),
      jsonPlain borrower = true → jsonPlain btc_address = true →
      jsonPlain nonce = true →
      verify_claim_token secret
          (issue_claim_token secret borrower btc_address chain_id ttl now nonce).1
          now2 =
        if now + max 60 ttl < now2 then .error .expired
        else if now2 + 60 < now then .error .issuedInFuture
        else .ok ⟨1, borrower, btc_address, nonce, chain_id, now,
          now + max 60 ttl⟩ := by
    intro secret borrower btc_address nonce chain_id ttl now now2 hb ha hn
    exact verify_encoded_payload secret
      ⟨1, borrower, btc_address, nonce, chain_id, now, now + max 60 ttl⟩
      now2 hb ha hn
  refine ⟨?_, ?_, ?_, ?_⟩
  · intro secret borrower btc_address nonce chain_id ttl now now2 hb ha hn h1 h2
    rw [hred secret borrower btc_address nonce chain_id ttl now now2 hb ha hn,
      if_neg (by omega : ¬(now + max 60 ttl < now2)),
      if_neg (by omega : ¬(now2 + 60 < now))]
    rfl
  · intro secret borrower btc_address nonce chain_id ttl now now2 hb ha hn h1
    rw [hred secret borrower btc_address nonce chain_id ttl now now2 hb ha hn,
      if_pos h1]
  · intro secret borrower btc_address nonce chain_id ttl now now2 hb ha hn h1
    rw [hred secret borrower btc_address nonce chain_id ttl now now2 hb ha hn,
      if_neg (by omega : ¬(now + max 60 ttl < now2)), if_pos h1]
  · intro secret token now p hok
    unfold verify_claim_token at hok
    cases hsp : splitFirst 46 token with
    | none => rw [hsp] at hok; cases hok
    | some pr =>
      obtain ⟨bb, mb⟩ := pr
      rw [hsp] at hok
      cases hdb : b64urlDecode bb with
      | none => simp only [hdb] at hok; cases hok
      | some body =>
        cases hdm : b64urlDecode mb with
        | none => simp only [hdb, hdm] at hok; cases hok
        | some mac =>
          simp only [hdb, hdm] at hok
          by_cases hmac : mac = hmacSha256 secret body
          · rw [if_pos hmac] at hok
            cases hpj : ClaimPayload.from_json_bytes body with
            | none => simp only [hpj] at hok; cases hok
            | some payload =>
              simp only [hpj] at hok
              by_cases hexp : payload.expires_at < now
              · rw [if_pos hexp] at hok; cases hok
              · rw [if_neg hexp] at hok
                by_cases hiat : now + 60 < payload.issued_at
                · rw [if_pos hiat] at hok; cases hok
                · rw [if_neg hiat] at hok
                  have hpp : payload = p := by
                    injection hok
                  subst hpp
                  exact ⟨⟨bb, mb, body, rfl, hdb, by rw [hdm, hmac], hpj⟩,
                    by omega, by omega⟩
          · rw [if_neg hmac] at hok
            cases hok

/-- C9 witness: the amended theorem at a concrete issuance — secret `"s"`,
borrower `"0xB"`, address `"bc1q"`, nonce `"n"`, issued at 100 with a
60-second TTL — verified at 120, 170 and 20. -/
theorem C9_claim_token_witness :
    verify_claim_token (asciiBytes "s")
        (issue_claim_token (asciiBytes "s") (asciiBytes "0xB") (asciiBytes "bc1q")
          1 60 100 (asciiBytes "n")).1 120 =
      .ok (issue_claim_token (asciiBytes "s") (asciiBytes "0xB")
          (asciiBytes "bc1q") 1 60 100 (asciiBytes "n")).2 ∧
    verify_claim_token (asciiBytes "s")
        (issue_claim_token (asciiBytes "s") (asciiBytes "0xB") (asciiBytes "bc1q")
          1 60 100 (asciiBytes "n")).1 170 =
      .error .expired ∧
    verify_claim_token (asciiBytes "s")
        (issue_claim_token (asciiBytes "s") (asciiBytes "0xB") (asciiBytes "bc1q")
          1 60 100 (asciiBytes "n")).1 20 =
      .error .issuedInFuture :=
  ⟨C9_claim_token.1 (asciiBytes "s") (asciiBytes "0xB") (asciiBytes "bc1q")
      (asciiBytes "n") 1 60 100 120 (by decide) (by decide) (by decide)
      (by omega) (by decide),
   C9_claim_token.2.1 (asciiBytes "s") (asciiBytes "0xB") (asciiBytes "bc1q")
      (asciiBytes "n") 1 60 100 170 (by decide) (by decide) (by decide)
      (by decide),
   C9_claim_token.2.2.1 (asciiBytes "s") (asciiBytes "0xB") (asciiBytes "bc1q")
      (asciiBytes "n") 1 60 100 20 (by decide) (by decide) (by decide)
      (by decide)⟩

def c9PayV2 : ClaimPayload :=
  ⟨2, asciiBytes "0xB", asciiBytes "bc1q", asciiBytes "n", 1, 100, 200⟩

/-- A well-MAC'd token whose payload carries `"v":2`. -/
def c9TokenV2 : List Nat :=
  b64urlEncode c9PayV2.to_json_bytes ++
    46 :: b64urlEncode (hmacSha256 (asciiBytes "s") c9PayV2.to_json_bytes)

/-- A token issued under the secret `"a\x00"`. -/
def c9TokenNul : List Nat :=
  (issue_claim_token [97, 0] (asciiBytes "0xB") (asciiBytes "bc1q") 1 60 100
    (asciiBytes "n")).1

/-- C9 counterexample: `verify_claim_token` accepts a token whose payload
has `version = 2` (no version check exists), and accepts under the secret
`"a"` a token issued under the different secret `"a\x00"` (HMAC pads short
keys with zero bytes, so both secrets produce identical MACs) — refuting
"verification fails for any token with version != 1" and "for any token
whose MAC was computed under a different secret". -/
theorem C9_counterexample :
    verify_claim_token (asciiBytes "s") c9TokenV2 150 = .ok c9PayV2 ∧
    verify_claim_token [97] c9TokenNul 120 =
      .ok ⟨1, asciiBytes "0xB", asciiBytes "bc1q", asciiBytes "n", 1, 100, 160⟩ :=
  ⟨rfl, rfl⟩

end HashCredit
